import Mathlib

/-!
# Verification of the OfficetoPDF batch tool core (`office_converter.py`)

Shallow embedding of the core algorithms of `office_converter.py`:

* the greedy size-bounded packing of the category-split merge mode
  (`merge_pdfs`, lines 1454-1493);
* the conflict resolver `handle_file_conflict` (lines 830-850) over an
  explicit file-system state;
* the retry wrapper `_safe_exec` (lines 898-917);
* the per-file conversion supervisor `process_single_file`
  (lines 1122-1261) together with the in-engine Excel content scan of
  `convert_logic_in_thread` (lines 1006-1015), at the level of its
  decision structure and its side-effect trace;
* the combine-all merge mode (`merge_pdfs`, lines 1411-1443);
* the size-then-hash deduplication, copy phase and record tables of
  `collect_office_files_and_build_excel` (lines 1601-1708);
* the quarantine logic of `quarantine_failed_file` (lines 1107-1120) and
  the failure handling of `run_batch` (lines 1320-1337).

Paths, extensions, file names and hash digests are encoded as natural
numbers (file names and keywords as lists of character codes where
substring matching matters).  Machine-level I/O (COM, timing, the real
file system) is represented by explicit state or oracle parameters.
-/

namespace OfficeConv

/-! ## Greedy packing of the category-split merge mode

`merge_pdfs`, lines 1470-1493: within one category the sorted file list
is packed greedily into volumes bounded by `max_size_bytes`; an oversize
file closes the current volume and is emitted as a singleton.
-/

structure PdfFile where
  path : Nat
  size : Nat
deriving DecidableEq, Repr

structure PackState where
  groups : List (List PdfFile)
  current : List PdfFile
  currentSize : Nat
deriving Repr

/-- One iteration of the packing loop of `merge_pdfs` (lines 1470-1490). -/
def packStep (maxBytes : Nat) (st : PackState) (f : PdfFile) : PackState :=
  if maxBytes < f.size then
    -- `if f_size > max_size_bytes:` — flush the current group, then emit `[f]`
    let st1 := if st.current = [] then st else ⟨st.groups ++ [st.current], [], 0⟩
    ⟨st1.groups ++ [[f]], st1.current, st1.currentSize⟩
  else if maxBytes < st.currentSize + f.size then
    ⟨st.groups ++ [st.current], [f], f.size⟩
  else
    ⟨st.groups, st.current ++ [f], st.currentSize + f.size⟩

/-- The final `if current_group: groups.append(current_group)`
(lines 1492-1493). -/
def packFinish (st : PackState) : List (List PdfFile) :=
  if st.current = [] then st.groups else st.groups ++ [st.current]

/-- The full packing loop of `merge_pdfs` (lines 1466-1493). -/
def packGroups (maxBytes : Nat) (files : List PdfFile) : List (List PdfFile) :=
  packFinish (files.foldl (packStep maxBytes) ⟨[], [], 0⟩)

/-! ## File-system state and `handle_file_conflict`

The file system visible to the conflict resolver is a list of
`(path, size)` entries; lookup finds the first entry of a path.
-/

/-- A file system fragment: paths with byte sizes. -/
abbrev FS : Type := List (Nat × Nat)

def FS.lookup : FS → Nat → Option Nat
  | [], _ => none
  | e :: rest, p => if e.1 = p then some e.2 else FS.lookup rest p

/-- `os.remove` / implicit replacement: drop every entry at path `p`. -/
def FS.removeFile : FS → Nat → FS
  | [], _ => []
  | e :: rest, p =>
      if e.1 = p then FS.removeFile rest p else e :: FS.removeFile rest p

/-- Create or replace the file at `p` with size `sz`. -/
def FS.writeFile (fs : FS) (p : Nat) (sz : Nat) : FS :=
  FS.removeFile fs p ++ [(p, sz)]

/-- `shutil.move src dst`: the destination receives the source file's
bytes and the source disappears. -/
def FS.move (fs : FS) (src dst : Nat) : FS :=
  match fs.lookup src with
  | none => fs
  | some sz => FS.writeFile (FS.removeFile fs src) dst sz

inductive ConflictOutcome where
  | succeeded      -- "成功"
  | overwritten    -- "覆盖"
  | conflictBacked -- "冲突备份"
deriving DecidableEq, Repr

/-- `handle_file_conflict` (lines 830-850).  `conflictDest` stands for the
time-suffixed path `conflicts/{basename}_{timestamp}.pdf` computed at
lines 844-848. -/
def handle_file_conflict (fs : FS) (tmp tgt conflictDest : Nat) :
    ConflictOutcome × Nat × FS :=
  match fs.lookup tgt with
  | none => (.succeeded, tgt, fs.move tmp tgt)
  | some tgtSize =>
      if fs.lookup tmp = some tgtSize then
        (.overwritten, tgt, FS.move (FS.removeFile fs tgt) tmp tgt)
      else
        (.conflictBacked, conflictDest, fs.move tmp conflictDest)

/-! ## The retry wrapper `_safe_exec` (lines 898-917)

The wrapped COM call is modelled by an oracle `func : Nat → AttemptResult`
giving the result of each attempt, and `rand : Nat → Nat` models
`random.randint(2, 5)` at each attempt.  Sleeps are recorded in a trace.
The cancellation check (`if not self.is_running`) is omitted: the claims
concern an uncancelled run.
-/

inductive AttemptResult where
  | ok (v : Nat)                 -- `func(*args, **kwargs)` returns
  | comBusy                      -- `com_error` with `hresult == ERR_RPC_SERVER_BUSY`
  | comErr (code : Int)          -- any other `com_error`
  | exn                          -- any other exception
deriving DecidableEq, Repr

inductive ExecResult where
  | ret (v : Option Nat)         -- normal return (`none` = fell off the loop)
  | raised (comCode : Option Int) -- exception propagated to the caller
deriving DecidableEq, Repr

inductive SleepEv where
  | busySleep (d : Nat)          -- `time.sleep(random.randint(2, 5))`
  | errSleep (d : Nat)           -- `time.sleep(1)`
deriving DecidableEq, Repr

/-- The body of `_safe_exec` from loop index `attempt` on; the first
argument is the number of loop iterations that remain
(`retries + 1 - attempt`).  When it reaches zero the `for` loop is
exhausted and the function returns `None`. -/
def safeExecAux (rand : Nat → Nat) (func : Nat → AttemptResult) (retries : Nat) :
    Nat → Nat → List SleepEv → ExecResult × List SleepEv
  | 0, _, trace => (.ret none, trace)
  | fuel + 1, attempt, trace =>
      match func attempt with
      | .ok v => (.ret (some v), trace)
      | .comBusy =>
          safeExecAux rand func retries fuel (attempt + 1)
            (trace ++ [.busySleep (rand attempt)])
      | .comErr c =>
          if attempt < retries then
            safeExecAux rand func retries fuel (attempt + 1)
              (trace ++ [.errSleep 1])
          else (.raised (some c), trace)
      | .exn =>
          if attempt < retries then
            safeExecAux rand func retries fuel (attempt + 1)
              (trace ++ [.errSleep 1])
          else (.raised none, trace)

/-- `_safe_exec(func, *args, retries=3)` (lines 898-917):
`for attempt in range(retries + 1)` starting at attempt 0. -/
def safe_exec (rand : Nat → Nat) (func : Nat → AttemptResult) (retries : Nat) :
    ExecResult × List SleepEv :=
  safeExecAux rand func retries (retries + 1) 0 []

/-! ## The per-file supervisor `process_single_file` (lines 1122-1261)

Decision structure and side-effect trace of `process_single_file`,
including the in-engine Excel scan of `convert_logic_in_thread`
(lines 1006-1015 / 1036-1045).  The engine call and the artifact wait are
oracles; wall-clock time is abstracted away.  File names and keywords are
lists of character codes so that Python's `kw in filename` substring test
is `List.IsInfix`.
-/

inductive Strategy where
  | standard | smartTag | priceOnly
deriving DecidableEq, Repr

structure PFConfig where
  strategy : Strategy
  keywords : List (List Nat)     -- `self.price_keywords`
  sandbox : Bool                 -- `enable_sandbox`
  wordExts : List Nat
  excelExts : List Nat
  pptExts : List Nat
  pdfExts : List Nat
deriving Repr

structure WorkFile where
  name : List Nat                -- `os.path.basename(file_path)`
  base : Nat                     -- base name without extension (opaque code)
  size : Nat
  ext : Nat
deriving DecidableEq, Repr

/-- The encoding of the literal extension ".pdf" (`is_pdf = ext == ".pdf"`). -/
def pdfExtCode : Nat := 0

inductive PrefixTag where
  | pword | pexcel | pppt | ppdf | pprice | pnone
deriving DecidableEq, Repr

/-- Destination naming of `get_target_path` (lines 804-828): category
prefix from the extension tables unless overridden. -/
def getTargetTag (cfg : PFConfig) (ext : Nat) (overrideTag : Option PrefixTag) :
    PrefixTag :=
  match overrideTag with
  | some p => p
  | none =>
      if ext ∈ cfg.wordExts then .pword
      else if ext ∈ cfg.excelExts then .pexcel
      else if ext ∈ cfg.pptExts then .pppt
      else if ext ∈ cfg.pdfExts then .ppdf
      else .pnone

structure TargetPath where
  tag : PrefixTag
  base : Nat
deriving DecidableEq, Repr

inductive PFEvent where
  | sandboxCopy                  -- `shutil.copy2(file_path, sandbox_src_path)`
  | engineCall                   -- the conversion thread / engine is started
  | contentScan                  -- `scan_pdf_content` / `scan_excel_content_in_thread`
deriving DecidableEq, Repr

inductive PFStatus where
  | skippedEmpty                 -- "跳过(0KB)"
  | skippedType                  -- "跳过(类型)"
  | skippedNoKeyword             -- "跳过(无关键字)"
  | placedOk                     -- handed to `handle_file_conflict`
  | timedOut                     -- raise "超时"
  | failedNoPdf                  -- raise "转换指令已发送但未生成PDF"
deriving DecidableEq, Repr

inductive EngineOracle where
  | finishes                     -- the conversion thread terminates in time
  | hangs                        -- the thread outlives the timeout
deriving DecidableEq, Repr

structure PFResult where
  status : PFStatus
  target : TargetPath            -- the path the call reports
  trace : List PFEvent
  skippedInc : Nat               -- delta applied to `stats["skipped"]`
  timeoutInc : Nat               -- delta applied to `stats["timeout"]`
deriving DecidableEq, Repr

/-- `target_path_initial` as computed by the caller `run_batch`
(line 1290): `get_target_path(fpath, ext)` with no override. -/
def initialTarget (cfg : PFConfig) (f : WorkFile) : TargetPath :=
  ⟨getTargetTag cfg f.ext none, f.base⟩

/-- `get_target_path(file_path, ext, prefix_override="Price_")`. -/
def priceTarget (f : WorkFile) : TargetPath :=
  ⟨.pprice, f.base⟩

/-- Step 1 of `process_single_file` (lines 1138-1143): filename keyword
match, only evaluated under a non-standard strategy. -/
def filenameMatch (cfg : PFConfig) (f : WorkFile) : Bool :=
  if cfg.strategy = Strategy.standard then false
  else cfg.keywords.any (fun kw => decide (kw <:+: f.name))

/-- Lines 1236-1261: recompute the target on a content hit, wait for the
artifact, hand off to the conflict resolver or fail. -/
def afterConvert (cfg : PFConfig) (f : WorkFile) (isPrice : Bool)
    (pdfAppears : Bool) (tr : List PFEvent) : PFResult :=
  let tgt := if isPrice then priceTarget f else initialTarget cfg f
  if pdfAppears then ⟨.placedOk, tgt, tr, 0, 0⟩
  else ⟨.failedNoPdf, tgt, tr, 0, 0⟩

/-- `process_single_file` (lines 1122-1261) with the Excel content scan of
`convert_logic_in_thread`.  `scanHit` is the content scanner oracle,
`eng` the engine-call oracle, `pdfAppears` the artifact-wait oracle. -/
def process_single_file (cfg : PFConfig) (f : WorkFile) (scanHit : Bool)
    (eng : EngineOracle) (pdfAppears : Bool) : PFResult :=
  if f.size = 0 then
    ⟨.skippedEmpty, initialTarget cfg f, [], 1, 0⟩
  else
    let isWord := f.ext ∈ cfg.wordExts
    let isExcel := f.ext ∈ cfg.excelExts
    let isPpt := f.ext ∈ cfg.pptExts
    let isPdf := f.ext = pdfExtCode
    let isFnMatch := filenameMatch cfg f
    if cfg.strategy = Strategy.priceOnly ∧ isFnMatch = false ∧ (isWord ∨ isPpt) then
      ⟨.skippedType, initialTarget cfg f, [], 1, 0⟩
    else
      let tr0 : List PFEvent := if cfg.sandbox then [.sandboxCopy] else []
      if isPdf then
        -- lines 1186-1195: scan only when the filename did not match
        if isFnMatch = false ∧ cfg.strategy ≠ Strategy.standard then
          let tr1 := tr0 ++ [.contentScan]
          if scanHit then afterConvert cfg f true pdfAppears tr1
          else if cfg.strategy = Strategy.priceOnly then
            ⟨.skippedNoKeyword, initialTarget cfg f, tr1, 1, 0⟩
          else afterConvert cfg f false pdfAppears tr1
        else afterConvert cfg f isFnMatch pdfAppears tr0
      else
        let tr1 := tr0 ++ [.engineCall]
        match eng with
        | .hangs => ⟨.timedOut, initialTarget cfg f, tr1, 0, 1⟩
        | .finishes =>
            -- `convert_logic_in_thread`: the Excel branch scans content
            -- when `skip_scan` (= filename match) is false (lines 1006-1015)
            if isExcel ∧ isFnMatch = false ∧ cfg.strategy ≠ Strategy.standard then
              let tr2 := tr1 ++ [.contentScan]
              if scanHit then afterConvert cfg f true pdfAppears tr2
              else if cfg.strategy = Strategy.priceOnly then
                ⟨.skippedNoKeyword, initialTarget cfg f, tr2, 1, 0⟩
              else afterConvert cfg f false pdfAppears tr2
            else afterConvert cfg f isFnMatch pdfAppears tr1

/-! ## Combine-all merge (`merge_pdfs`, lines 1411-1443)

The walk over the target tree is modelled by a flat list of directory
entries; a directory is an atomic label, so the exclusion test
`os.path.abspath(root) in [failed_dir, merge_output_dir]` is label
equality.  Python's `all_pdfs.sort()` on path strings is a sort of the
path codes.
-/

structure DirFile where
  dir : Nat                      -- the directory (`root` of the walk)
  path : Nat                     -- full path, ordered like the path string
  isPdfName : Bool               -- `f.lower().endswith(".pdf")`
deriving DecidableEq, Repr

/-- Collection loop of `merge_pdfs` (lines 1411-1419). -/
def collectAllPdfs (failedDir mergeDir : Nat) (tree : List DirFile) : List Nat :=
  (tree.filter (fun e => ¬(e.dir = failedDir ∨ e.dir = mergeDir) ∧ e.isPdfName)).map
    (·.path)

/-- Combine-all branch of `merge_pdfs` (lines 1421-1443): `none` when no
PDF was found (no volume), otherwise the single output volume with its
member list in sorted path order. -/
def mergeAllInOne (failedDir mergeDir : Nat) (tree : List DirFile) :
    Option (List Nat) :=
  let allPdfs := collectAllPdfs failedDir mergeDir tree
  if allPdfs = [] then none
  else some (allPdfs.insertionSort (· ≤ ·))

/-! ## Dedup/index engine (`collect_office_files_and_build_excel`)

Lines 1601-1674: group the scanned files by byte size (a Python dict with
`setdefault(...).append(...)`, i.e. insertion-ordered keys, members in
input order), then inside every non-singleton size group by content hash,
and emit unique/keep records and duplicate records.  A scanned file is a
`FileEntry`; `hash` is its sha256 digest (`_compute_file_hash`).  `dstOf`
models `os.path.join(target_root, os.path.relpath(src, source_root))`.
The `hashed` field of the result records which files
`_compute_file_hash` was called on.
-/

structure FileEntry where
  path : Nat
  size : Nat
  ext : Nat
  hash : Nat
deriving DecidableEq, Repr

/-- `dict.setdefault(k, []).append(f)`: append `f` to the first entry with
key `k`, or add a new `(k, [f])` entry at the end. -/
def addGroup (k : Nat) (f : FileEntry) :
    List (Nat × List FileEntry) → List (Nat × List FileEntry)
  | [] => [(k, [f])]
  | e :: rest =>
      if e.1 = k then (e.1, e.2 ++ [f]) :: rest
      else e :: addGroup k f rest

/-- The grouping dicts `size_groups` (lines 1601-1603) and `hash_groups`
(lines 1627-1630), iterated in insertion order. -/
def groupsBy (key : FileEntry → Nat) (files : List FileEntry) :
    List (Nat × List FileEntry) :=
  files.foldl (fun acc f => addGroup (key f) f acc) []

structure UniqueRecord where
  groupId : Option Nat
  src : Nat
  dst : Nat
  size : Nat
  ext : Nat
deriving DecidableEq, Repr

structure DupRecord where
  groupId : Nat
  src : Nat
  size : Nat
  ext : Nat
  keepSrc : Nat
  keepDst : Nat
deriving DecidableEq, Repr

structure CollectState where
  uniques : List UniqueRecord
  dups : List DupRecord
  hashed : List FileEntry
  nextGid : Nat
deriving Repr

/-- Lines 1632-1674: classify one hash group.  A singleton is a unique
record; otherwise the first member is the keep record and the rest become
duplicate records referencing it, under a fresh group id. -/
def processHashGroup (dstOf : Nat → Nat) (s : Nat) (st : CollectState)
    (same : List FileEntry) : CollectState :=
  match same with
  | [] => st
  | [f] =>
      { st with uniques := st.uniques ++ [⟨none, f.path, dstOf f.path, s, f.ext⟩] }
  | keep :: rest =>
      { st with
        uniques := st.uniques ++
          [⟨some st.nextGid, keep.path, dstOf keep.path, s, keep.ext⟩],
        dups := st.dups ++ rest.map
          (fun d => ⟨st.nextGid, d.path, s, d.ext, keep.path, dstOf keep.path⟩),
        nextGid := st.nextGid + 1 }

/-- Lines 1609-1674: classify one size group.  A singleton is a unique
record with no hashing; otherwise every member is hashed and the hash
groups are processed in insertion order. -/
def processSizeGroup (dstOf : Nat → Nat) (st : CollectState) (s : Nat)
    (ms : List FileEntry) : CollectState :=
  match ms with
  | [f] =>
      { st with uniques := st.uniques ++ [⟨none, f.path, dstOf f.path, s, f.ext⟩] }
  | _ =>
      let st1 := { st with hashed := st.hashed ++ ms }
      (groupsBy (·.hash) ms).foldl
        (fun st2 p => processHashGroup dstOf s st2 p.2) st1

/-- The grouping phase of `collect_office_files_and_build_excel`
(lines 1601-1674), for an uncancelled run.  Group ids start at 1
(`G1`, `G2`, ...). -/
def collectDedup (dstOf : Nat → Nat) (files : List FileEntry) : CollectState :=
  (groupsBy (·.size) files).foldl
    (fun st p => processSizeGroup dstOf st p.1 p.2) ⟨[], [], [], 1⟩

/-! ## Dedup copy phase (lines 1684-1708)

Every unique/kept record is copied to its destination only when the
destination does not exist yet.  The file system here maps a path to an
opaque content code; `content` gives the bytes of a source path.
-/

structure CopyRec where
  src : Nat
  dst : Nat
deriving DecidableEq, Repr

/-- Lines 1693-1695: `if not os.path.exists(dst): shutil.copy2(src, dst)`. -/
def copyStep (content : Nat → Nat) (fs : FS) (r : CopyRec) : FS :=
  if (fs.lookup r.dst).isSome then fs else FS.writeFile fs r.dst (content r.src)

/-- The copy loop over the unique records (lines 1686-1707), for an
uncancelled run. -/
def copyUniqueFiles (content : Nat → Nat) (fs : FS) (recs : List CopyRec) : FS :=
  recs.foldl (copyStep content) fs

/-! ## Quarantine (`quarantine_failed_file`, lines 1107-1120) and the
failure handling of `run_batch` (lines 1282-1337)

The quarantine directory is a list of entries (name placed in
`_FAILED_FILES`, source path copied from).  `sfx` models the
time-suffixed name `f"{name}_{HHMMSS}{ext}"` chosen on collision.  The
per-file work of `process_single_file` is abstracted by an outcome
oracle; the claims here concern only what `run_batch` does with each
outcome.
-/

structure QEntry where
  name : Nat
  src : Nat
deriving DecidableEq, Repr

/-- `quarantine_failed_file(source_path, should_copy=True)`
(lines 1107-1120). -/
def quarantine_failed_file (q : List QEntry) (fname sfxName srcPath : Nat)
    (shouldCopy : Bool) : List QEntry :=
  if shouldCopy = false then q
  else if fname ∈ q.map (·.name) then q ++ [⟨sfxName, srcPath⟩]
  else q ++ [⟨fname, srcPath⟩]

inductive BatchOutcome where
  | okPlaced                     -- a non-"跳过" status string returned
  | skipped                      -- a "跳过..." status string returned
  | timedOutB                    -- exception whose message contains "超时"
  | failedB                      -- any other exception
deriving DecidableEq, Repr

structure BatchFile where
  path : Nat
  name : Nat                     -- `os.path.basename(fpath)`
deriving DecidableEq, Repr

structure BatchState where
  q : List QEntry
  errorRecords : List Nat
  success : Nat
  failedCnt : Nat
deriving Repr

/-- One iteration of the loop of `run_batch` (lines 1284-1337), driven by
the outcome oracle. -/
def runBatchStep (outcome : Nat → BatchOutcome) (sfx : Nat → Nat)
    (isRetry : Bool) (st : BatchState) (f : BatchFile) : BatchState :=
  match outcome f.path with
  | .skipped => st
  | .okPlaced => { st with success := st.success + 1 }
  | .timedOutB =>
      if isRetry then st
      else { st with
        q := quarantine_failed_file st.q f.name (sfx f.path) f.path true,
        errorRecords := st.errorRecords ++ [f.path] }
  | .failedB =>
      let st1 := { st with failedCnt := st.failedCnt + 1 }
      if isRetry then st1
      else { st1 with
        q := quarantine_failed_file st1.q f.name (sfx f.path) f.path true,
        errorRecords := st1.errorRecords ++ [f.path] }

/-- `run_batch(file_list, is_retry)` restricted to its quarantine, error
record and counter effects, for an uncancelled run.  `q0` is the content
of the quarantine folder when the batch starts. -/
def run_batch (outcome : Nat → BatchOutcome) (sfx : Nat → Nat) (isRetry : Bool)
    (files : List BatchFile) (q0 : List QEntry) : BatchState :=
  files.foldl (runBatchStep outcome sfx isRetry) ⟨q0, [], 0, 0⟩

/-! ## Views used by the statements -/

/-- Value of a key in a grouping dict (empty list when the key is absent),
mirroring `size_groups[k]` / `hash_groups[k]`. -/
def findGroup (k : Nat) : List (Nat × List FileEntry) → List FileEntry
  | [] => []
  | e :: rest => if e.1 = k then e.2 else findGroup k rest

/-- Same byte size and same full-content hash as `f`. -/
def sameClass (f y : FileEntry) : Bool :=
  decide (y.size = f.size) && decide (y.hash = f.hash)

/-- All scanned files (in input order) with the same size and hash as `f`:
the duplicate class of `f`. -/
def classOf (F : List FileEntry) (f : FileEntry) : List FileEntry :=
  F.filter (sameClass f)

/-- The path `p` belongs to duplicate group `gid` of the report: either as
the keep record or as a duplicate record. -/
def inDupGroup (st : CollectState) (gid : Nat) (p : Nat) : Prop :=
  (∃ u ∈ st.uniques, u.groupId = some gid ∧ u.src = p) ∨
  (∃ d ∈ st.dups, d.groupId = gid ∧ d.src = p)

/-- `f` is reported as a unique record without a group id. -/
def uniqueNone (dstOf : Nat → Nat) (st : CollectState) (f : FileEntry) : Prop :=
  ∃ u ∈ st.uniques, u.groupId = none ∧ u.src = f.path ∧ u.dst = dstOf f.path

/-- The keep record written for group `gid` with keep file `k`. -/
def keepRec (dstOf : Nat → Nat) (gid : Nat) (k : FileEntry) : UniqueRecord :=
  ⟨some gid, k.path, dstOf k.path, k.size, k.ext⟩

/-- The duplicate record written for member `d` of group `gid` whose keep
file is `k`. -/
def dupRecOf (dstOf : Nat → Nat) (gid : Nat) (k d : FileEntry) : DupRecord :=
  ⟨gid, d.path, k.size, d.ext, k.path, dstOf k.path⟩

/-- Group `gid` of the report consists exactly of the given member files:
the head is the keep record, the tail the duplicate records, in order. -/
def groupIs (dstOf : Nat → Nat) (st : CollectState) (gid : Nat)
    (members : List FileEntry) : Prop :=
  ∃ k tl, members = k :: tl ∧
    st.uniques.filter (fun u => u.groupId = some gid) = [keepRec dstOf gid k] ∧
    st.dups.filter (fun d => d.groupId = gid) = tl.map (dupRecOf dstOf gid k)

/-- The source paths mentioned by the two report tables. -/
def srcsOf (st : CollectState) : List Nat :=
  st.uniques.map (·.src) ++ st.dups.map (·.src)

/-- All scanned files with the same byte size as `f`, in input order. -/
def szFilter (F : List FileEntry) (f : FileEntry) : List FileEntry :=
  F.filter (fun y => decide (y.size = f.size))

/-- A size has been fully processed. -/
def ClsSz (SzDone : List Nat) (f : FileEntry) : Prop := f.size ∈ SzDone

/-- Mid-way through size group `s`: processed sizes plus the hash classes
of `s` handled so far. -/
def ClsInner (SzDone : List Nat) (s : Nat) (HDone : List Nat)
    (f : FileEntry) : Prop :=
  f.size ∈ SzDone ∨ (f.size = s ∧ f.hash ∈ HDone)

/-- Invariant of the dedup grouping loop: `SzDone` are the size keys whose
groups are behind us, `Cls` the population whose classification is
already final. -/
structure DedupInv (dstOf : Nat → Nat) (F : List FileEntry) (st : CollectState)
    (SzDone : List Nat) (Cls : FileEntry → Prop) : Prop where
  notHashed : ∀ f ∈ F, f.size ∈ SzDone → szFilter F f = [f] → f ∉ st.hashed
  hashedSz : ∀ x ∈ st.hashed, x.size ∈ SzDone
  uniqueSingleton : ∀ f ∈ F, Cls f → classOf F f = [f] → uniqueNone dstOf st f
  groupMulti : ∀ f ∈ F, Cls f → classOf F f ≠ [f] →
    ∃ gid, 1 ≤ gid ∧ gid < st.nextGid ∧ groupIs dstOf st gid (classOf F f)
  gidRangeU : ∀ u ∈ st.uniques, ∀ g, u.groupId = some g → 1 ≤ g ∧ g < st.nextGid
  gidRangeD : ∀ d ∈ st.dups, 1 ≤ d.groupId ∧ d.groupId < st.nextGid
  gidSound : ∀ gid, 1 ≤ gid → gid < st.nextGid →
    ∃ f, f ∈ F ∧ Cls f ∧ classOf F f ≠ [f] ∧ groupIs dstOf st gid (classOf F f)
  oneLe : 1 ≤ st.nextGid

/-- Invariant of the greedy packing loop after consuming `consumed`. -/
def PackInv (maxBytes : Nat) (consumed : List PdfFile) (st : PackState) : Prop :=
  st.currentSize = (st.current.map (·.size)).sum ∧
  st.currentSize ≤ maxBytes ∧
  (∀ g ∈ st.groups, g.length = 1 ∨ (g.map (·.size)).sum ≤ maxBytes) ∧
  st.groups.flatten ++ st.current = consumed ∧
  (∀ f ∈ consumed, maxBytes < f.size → [f] ∈ st.groups)

/-! # Theorems -/

/-! ## C2: greedy packing of the category-split merge -/

theorem packStep_inv (maxBytes : Nat) (consumed : List PdfFile) (st : PackState)
    (f : PdfFile) (h : PackInv maxBytes consumed st) :
    PackInv maxBytes (consumed ++ [f]) (packStep maxBytes st f) := by
  obtain ⟨hsum, hle, hgroups, hflat, hbig⟩ := h
  unfold packStep
  split_ifs with h1 h2 h3
  · -- oversize file, current group empty
    refine ⟨hsum, hle, ?_, ?_, ?_⟩
    · intro g hg
      rcases List.mem_append.1 hg with hg | hg
      · exact hgroups g hg
      · simp only [List.mem_singleton] at hg
        subst hg; left; rfl
    · simp only [List.flatten_append, List.flatten_cons, List.flatten_nil,
        List.append_nil, List.append_assoc]
      rw [← hflat, h2]
      simp
    · intro x hx hxbig
      rcases List.mem_append.1 hx with hx | hx
      · exact List.mem_append_left _ (hbig x hx hxbig)
      · simp only [List.mem_singleton] at hx
        subst hx
        exact List.mem_append_right _ (by simp)
  · -- oversize file, current group flushed first
    refine ⟨rfl, Nat.zero_le _, ?_, ?_, ?_⟩
    · intro g hg
      rcases List.mem_append.1 hg with hg | hg
      · rcases List.mem_append.1 hg with hg | hg
        · exact hgroups g hg
        · simp only [List.mem_singleton] at hg
          subst hg; right; rw [← hsum]; exact hle
      · simp only [List.mem_singleton] at hg
        subst hg; left; rfl
    · simp only [List.flatten_append, List.flatten_cons, List.flatten_nil,
        List.append_nil, List.append_assoc]
      rw [← hflat]
      simp
    · intro x hx hxbig
      rcases List.mem_append.1 hx with hx | hx
      · exact List.mem_append_left _ (List.mem_append_left _ (hbig x hx hxbig))
      · simp only [List.mem_singleton] at hx
        subst hx
        exact List.mem_append_right _ (by simp)
  · -- the file would overflow the current volume: close it, start fresh
    refine ⟨by simp, ?_, ?_, ?_, ?_⟩
    · show f.size ≤ maxBytes
      omega
    · intro g hg
      rcases List.mem_append.1 hg with hg | hg
      · exact hgroups g hg
      · simp only [List.mem_singleton] at hg
        subst hg; right; rw [← hsum]; exact hle
    · show (st.groups ++ [st.current]).flatten ++ [f] = consumed ++ [f]
      simp only [List.flatten_append, List.flatten_cons, List.flatten_nil,
        List.append_nil, List.append_assoc, ← hflat]
    · intro x hx hxbig
      rcases List.mem_append.1 hx with hx | hx
      · exact List.mem_append_left _ (hbig x hx hxbig)
      · simp only [List.mem_singleton] at hx
        subst hx; omega
  · -- the file fits into the current volume
    refine ⟨by simp [hsum], ?_, hgroups, ?_, ?_⟩
    · show st.currentSize + f.size ≤ maxBytes
      omega
    · show st.groups.flatten ++ (st.current ++ [f]) = consumed ++ [f]
      simp only [← hflat, List.append_assoc]
    · intro x hx hxbig
      rcases List.mem_append.1 hx with hx | hx
      · exact hbig x hx hxbig
      · simp only [List.mem_singleton] at hx
        subst hx; omega

theorem packFold_inv (maxBytes : Nat) (files : List PdfFile) :
    ∀ (consumed : List PdfFile) (st : PackState), PackInv maxBytes consumed st →
      PackInv maxBytes (consumed ++ files) (files.foldl (packStep maxBytes) st) := by
  induction files with
  | nil => intro consumed st h; simpa using h
  | cons f fs ih =>
      intro consumed st h
      have h1 := packStep_inv maxBytes consumed st f h
      have h2 := ih (consumed ++ [f]) _ h1
      simpa using h2

/-- C2: in category-split merge mode, for every artifact list the greedy
packing yields volumes such that every non-singleton volume's sizes sum to
at most the maximum, every input artifact appears in exactly one volume
(the volumes concatenate back to the input, and under distinct paths each
file occurs exactly once across volumes), and every file larger than the
maximum forms its own singleton volume. -/
theorem c2_category_pack_correct (maxBytes : Nat) (files : List PdfFile) :
    (∀ g ∈ packGroups maxBytes files,
        g.length = 1 ∨ (g.map (·.size)).sum ≤ maxBytes) ∧
    (packGroups maxBytes files).flatten = files ∧
    (∀ f ∈ files, maxBytes < f.size → [f] ∈ packGroups maxBytes files) ∧
    ((files.map (·.path)).Nodup → ∀ f ∈ files,
        ((packGroups maxBytes files).map (fun g => g.count f)).sum = 1) := by
  have h0 : PackInv maxBytes [] ⟨[], [], 0⟩ := by
    refine ⟨rfl, Nat.zero_le _, ?_, rfl, ?_⟩ <;> simp
  have h := packFold_inv maxBytes files [] _ h0
  simp only [List.nil_append] at h
  unfold packGroups
  generalize hG : files.foldl (packStep maxBytes) ⟨[], [], 0⟩ = st
  rw [hG] at h
  obtain ⟨hsum, hle, hgroups, hflat, hbig⟩ := h
  have hflat2 : (packFinish st).flatten = files := by
    unfold packFinish
    split_ifs with hcur
    · rw [← hflat, hcur, List.append_nil]
    · rw [List.flatten_append, List.flatten_cons, List.flatten_nil,
        List.append_nil, hflat]
  refine ⟨?_, hflat2, ?_, ?_⟩
  · intro g hg
    unfold packFinish at hg
    split_ifs at hg with hcur
    · exact hgroups g hg
    · rcases List.mem_append.1 hg with hg | hg
      · exact hgroups g hg
      · simp only [List.mem_singleton] at hg
        subst hg; right; rw [← hsum]; exact hle
  · intro f hf hfbig
    have hmem := hbig f hf hfbig
    unfold packFinish
    split_ifs with hcur
    · exact hmem
    · exact List.mem_append_left _ hmem
  · intro hnd f hf
    have hnd2 : files.Nodup := List.Nodup.of_map _ hnd
    have hcount : files.count f = 1 := List.count_eq_one_of_mem hnd2 hf
    rw [← List.count_flatten, hflat2, hcount]

/-- Scenario C witness: artifacts of 50, 40, 10 (MB) with an 80 MB bound. -/
theorem c2_category_pack_witness :
    (∀ g ∈ packGroups 80 [⟨1, 50⟩, ⟨2, 40⟩, ⟨3, 10⟩],
        g.length = 1 ∨ (g.map (·.size)).sum ≤ 80) ∧
    (packGroups 80 [⟨1, 50⟩, ⟨2, 40⟩, ⟨3, 10⟩]).flatten =
      [⟨1, 50⟩, ⟨2, 40⟩, ⟨3, 10⟩] ∧
    (∀ f ∈ [(⟨1, 50⟩ : PdfFile), ⟨2, 40⟩, ⟨3, 10⟩], 80 < f.size →
        [f] ∈ packGroups 80 [⟨1, 50⟩, ⟨2, 40⟩, ⟨3, 10⟩]) ∧
    ((([(⟨1, 50⟩ : PdfFile), ⟨2, 40⟩, ⟨3, 10⟩]).map (·.path)).Nodup →
      ∀ f ∈ [(⟨1, 50⟩ : PdfFile), ⟨2, 40⟩, ⟨3, 10⟩],
        ((packGroups 80 [⟨1, 50⟩, ⟨2, 40⟩, ⟨3, 10⟩]).map
          (fun g => g.count f)).sum = 1) :=
  c2_category_pack_correct 80 [⟨1, 50⟩, ⟨2, 40⟩, ⟨3, 10⟩]

/-! ## C3: conflict resolution (`handle_file_conflict`) -/

theorem lookup_append_of_none (l1 l2 : FS) (p : Nat)
    (h : FS.lookup l1 p = none) : FS.lookup (l1 ++ l2) p = FS.lookup l2 p := by
  induction l1 with
  | nil => rfl
  | cons e rest ih =>
      by_cases he : e.1 = p
      · simp [FS.lookup, he] at h
      · simp only [FS.lookup, he, if_false, List.cons_append, if_neg he] at h ⊢
        exact ih h

theorem lookup_append_of_some (l1 l2 : FS) (p : Nat) (v : Nat)
    (h : FS.lookup l1 p = some v) : FS.lookup (l1 ++ l2) p = some v := by
  induction l1 with
  | nil => simp [FS.lookup] at h
  | cons e rest ih =>
      by_cases he : e.1 = p
      · simp only [FS.lookup, if_pos he, List.cons_append] at h ⊢
        exact h
      · simp only [FS.lookup, if_neg he, List.cons_append] at h ⊢
        exact ih h

theorem lookup_removeFile_self (fs : FS) (p : Nat) :
    FS.lookup (FS.removeFile fs p) p = none := by
  induction fs with
  | nil => rfl
  | cons e rest ih =>
      by_cases he : e.1 = p
      · simpa [FS.removeFile, he] using ih
      · simpa [FS.removeFile, FS.lookup, he] using ih

theorem lookup_removeFile_ne (fs : FS) (p q : Nat) (h : q ≠ p) :
    FS.lookup (FS.removeFile fs p) q = FS.lookup fs q := by
  induction fs with
  | nil => rfl
  | cons e rest ih =>
      simp only [FS.removeFile]
      by_cases he : e.1 = p
      · have hq : ¬(e.1 = q) := by
          intro hc
          rw [hc] at he
          exact h he
        rw [if_pos he, ih]
        simp [FS.lookup, hq]
      · rw [if_neg he]
        simp only [FS.lookup]
        by_cases hq : e.1 = q
        · rw [if_pos hq, if_pos hq]
        · rw [if_neg hq, if_neg hq]
          exact ih

theorem lookup_writeFile_self (fs : FS) (p : Nat) (sz : Nat) :
    FS.lookup (FS.writeFile fs p sz) p = some sz := by
  unfold FS.writeFile
  rw [lookup_append_of_none _ _ _ (lookup_removeFile_self fs p)]
  simp [FS.lookup]

theorem lookup_writeFile_ne (fs : FS) (p q : Nat) (sz : Nat) (h : q ≠ p) :
    FS.lookup (FS.writeFile fs p sz) q = FS.lookup fs q := by
  unfold FS.writeFile
  cases hq : FS.lookup fs q with
  | none =>
      have h1 : FS.lookup (FS.removeFile fs p) q = none := by
        rw [lookup_removeFile_ne fs p q h]; exact hq
      rw [lookup_append_of_none _ _ _ h1]
      have h2 : ¬(p = q) := fun hc => h hc.symm
      simp [FS.lookup, h2]
  | some v =>
      apply lookup_append_of_some
      rw [lookup_removeFile_ne fs p q h]; exact hq

theorem move_eq (fs : FS) (src dst : Nat) (sz : Nat)
    (h : fs.lookup src = some sz) :
    FS.move fs src dst = FS.writeFile (FS.removeFile fs src) dst sz := by
  unfold FS.move
  rw [h]

/-- C3: for every scratch artifact and destination, conflict resolution
yields exactly one of three outcomes.  Destination absent: the artifact is
moved there, outcome `succeeded`.  Destination present with the same byte
size: the destination is replaced by the artifact, outcome `overwritten`.
Destination present with a different size: the artifact goes to the
time-suffixed conflict path, outcome `conflictBacked`, and the
pre-existing destination is unchanged.  In every case the scratch file is
gone afterwards. -/
theorem c3_conflict_outcomes (fs : FS) (tmp tgt cd tsz : Nat)
    (htmp : fs.lookup tmp = some tsz) (h1 : tmp ≠ tgt) (h2 : cd ≠ tgt)
    (h3 : cd ≠ tmp) :
    (fs.lookup tgt = none →
      (handle_file_conflict fs tmp tgt cd).1 = .succeeded ∧
      (handle_file_conflict fs tmp tgt cd).2.1 = tgt ∧
      ((handle_file_conflict fs tmp tgt cd).2.2).lookup tgt = some tsz ∧
      ((handle_file_conflict fs tmp tgt cd).2.2).lookup tmp = none) ∧
    (fs.lookup tgt = some tsz →
      (handle_file_conflict fs tmp tgt cd).1 = .overwritten ∧
      (handle_file_conflict fs tmp tgt cd).2.1 = tgt ∧
      ((handle_file_conflict fs tmp tgt cd).2.2).lookup tgt = some tsz ∧
      ((handle_file_conflict fs tmp tgt cd).2.2).lookup tmp = none) ∧
    (∀ osz, fs.lookup tgt = some osz → osz ≠ tsz →
      (handle_file_conflict fs tmp tgt cd).1 = .conflictBacked ∧
      (handle_file_conflict fs tmp tgt cd).2.1 = cd ∧
      ((handle_file_conflict fs tmp tgt cd).2.2).lookup tgt = some osz ∧
      ((handle_file_conflict fs tmp tgt cd).2.2).lookup cd = some tsz ∧
      ((handle_file_conflict fs tmp tgt cd).2.2).lookup tmp = none) := by
  refine ⟨?_, ?_, ?_⟩
  · intro habs
    have hmv : FS.move fs tmp tgt = FS.writeFile (FS.removeFile fs tmp) tgt tsz :=
      move_eq fs tmp tgt tsz htmp
    unfold handle_file_conflict
    rw [habs]
    dsimp only
    refine ⟨rfl, rfl, ?_, ?_⟩
    · simp only [hmv, lookup_writeFile_self]
    · simp only [hmv]
      rw [lookup_writeFile_ne _ _ _ _ h1, lookup_removeFile_self]
  · intro hsame
    unfold handle_file_conflict
    rw [hsame]
    dsimp only
    rw [if_pos htmp]
    have hrm : (FS.removeFile fs tgt).lookup tmp = some tsz := by
      rw [lookup_removeFile_ne fs tgt tmp h1]; exact htmp
    have hmv : FS.move (FS.removeFile fs tgt) tmp tgt =
        FS.writeFile (FS.removeFile (FS.removeFile fs tgt) tmp) tgt tsz :=
      move_eq _ tmp tgt tsz hrm
    refine ⟨rfl, rfl, ?_, ?_⟩
    · simp only [hmv, lookup_writeFile_self]
    · simp only [hmv]
      rw [lookup_writeFile_ne _ _ _ _ h1, lookup_removeFile_self]
  · intro osz hosz hne
    unfold handle_file_conflict
    rw [hosz]
    dsimp only
    have hcond : ¬(fs.lookup tmp = some osz) := by
      rw [htmp]
      intro hc
      exact hne (Option.some.inj hc).symm
    rw [if_neg hcond]
    have hmv : FS.move fs tmp cd = FS.writeFile (FS.removeFile fs tmp) cd tsz :=
      move_eq fs tmp cd tsz htmp
    refine ⟨rfl, rfl, ?_, ?_, ?_⟩
    · simp only [hmv]
      rw [lookup_writeFile_ne _ _ _ _ (fun hq => h2 hq.symm),
        lookup_removeFile_ne _ _ _ (fun hq => h1 hq.symm)]
      exact hosz
    · simp only [hmv, lookup_writeFile_self]
    · simp only [hmv]
      rw [lookup_writeFile_ne _ _ _ _ (fun hq => h3 hq.symm),
        lookup_removeFile_self]

/-- Witness for C3 at a concrete state: scratch artifact at path 10 of
size 5, destination 11 absent, conflict path 12. -/
theorem c3_conflict_outcomes_witness :
    (FS.lookup [(10, 5)] 10 = some 5 ∧ (10 : Nat) ≠ 11 ∧ (12 : Nat) ≠ 11 ∧
      (12 : Nat) ≠ 10) ∧
    (FS.lookup [(10, 5)] 11 = none →
      (handle_file_conflict [(10, 5)] 10 11 12).1 = .succeeded ∧
      (handle_file_conflict [(10, 5)] 10 11 12).2.1 = 11 ∧
      ((handle_file_conflict [(10, 5)] 10 11 12).2.2).lookup 11 = some 5 ∧
      ((handle_file_conflict [(10, 5)] 10 11 12).2.2).lookup 10 = none) :=
  ⟨⟨by decide, by decide, by decide, by decide⟩,
    (c3_conflict_outcomes [(10, 5)] 10 11 12 5 (by decide) (by decide)
      (by decide) (by decide)).1⟩

/-! ## C4: the retry wrapper `_safe_exec` -/

theorem safeExecAux_trace_shape (rand : Nat → Nat) (func : Nat → AttemptResult)
    (retries : Nat) (P : SleepEv → Prop)
    (hP1 : ∀ a, P (.busySleep (rand a))) (hP2 : P (.errSleep 1)) :
    ∀ fuel attempt trace, (∀ ev ∈ trace, P ev) →
      ∀ ev ∈ (safeExecAux rand func retries fuel attempt trace).2, P ev := by
  intro fuel
  induction fuel with
  | zero =>
      intro attempt trace h ev hev
      exact h ev hev
  | succ n ih =>
      intro attempt trace h ev hev
      cases hfa : func attempt with
      | ok v =>
          simp only [safeExecAux, hfa] at hev
          exact h ev hev
      | comBusy =>
          simp only [safeExecAux, hfa] at hev
          refine ih (attempt + 1) _ ?_ ev hev
          intro e he
          rcases List.mem_append.1 he with he | he
          · exact h e he
          · simp only [List.mem_singleton] at he
            subst he; exact hP1 attempt
      | comErr c =>
          simp only [safeExecAux, hfa] at hev
          split_ifs at hev with hlt
          · refine ih (attempt + 1) _ ?_ ev hev
            intro e he
            rcases List.mem_append.1 he with he | he
            · exact h e he
            · simp only [List.mem_singleton] at he
              subst he; exact hP2
          · exact h ev hev
      | exn =>
          simp only [safeExecAux, hfa] at hev
          split_ifs at hev with hlt
          · refine ih (attempt + 1) _ ?_ ev hev
            intro e he
            rcases List.mem_append.1 he with he | he
            · exact h e he
            · simp only [List.mem_singleton] at he
              subst he; exact hP2
          · exact h ev hev

theorem safeExecAux_ret_some (rand : Nat → Nat) (func : Nat → AttemptResult)
    (retries : Nat) :
    ∀ fuel attempt trace v,
      (safeExecAux rand func retries fuel attempt trace).1 = .ret (some v) →
      ∃ a, attempt ≤ a ∧ a < attempt + fuel ∧ func a = .ok v := by
  intro fuel
  induction fuel with
  | zero =>
      intro attempt trace v h
      simp [safeExecAux] at h
  | succ n ih =>
      intro attempt trace v h
      cases hfa : func attempt with
      | ok w =>
          simp only [safeExecAux, hfa] at h
          have hw : w = v := by
            cases h; rfl
          exact ⟨attempt, le_refl _, by omega, by rw [hfa, hw]⟩
      | comBusy =>
          simp only [safeExecAux, hfa] at h
          obtain ⟨a, ha1, ha2, ha3⟩ := ih (attempt + 1) _ v h
          exact ⟨a, by omega, by omega, ha3⟩
      | comErr c =>
          simp only [safeExecAux, hfa] at h
          split_ifs at h with hlt
          obtain ⟨a, ha1, ha2, ha3⟩ := ih (attempt + 1) _ v h
          exact ⟨a, by omega, by omega, ha3⟩
      | exn =>
          simp only [safeExecAux, hfa] at h
          split_ifs at h with hlt
          obtain ⟨a, ha1, ha2, ha3⟩ := ih (attempt + 1) _ v h
          exact ⟨a, by omega, by omega, ha3⟩

theorem safeExecAux_exhaust (rand : Nat → Nat) (func : Nat → AttemptResult)
    (retries : Nat) :
    ∀ n attempt trace, n + 1 + attempt = retries + 1 →
      (∀ a, attempt ≤ a → a ≤ retries → ∀ v, func a ≠ .ok v) →
      ((func retries = .comBusy ∧
          (safeExecAux rand func retries (n + 1) attempt trace).1 = .ret none) ∨
       (func retries ≠ .comBusy ∧
          ∃ c, (safeExecAux rand func retries (n + 1) attempt trace).1 =
            .raised c)) := by
  intro n
  induction n with
  | zero =>
      intro attempt trace hcnt hnok
      have hat : attempt = retries := by omega
      cases hfa : func attempt with
      | ok v => exact absurd hfa (hnok attempt (le_refl _) (by omega) v)
      | comBusy =>
          left
          constructor
          · rw [← hat]; exact hfa
          · simp [safeExecAux, hfa]
      | comErr c =>
          right
          constructor
          · rw [← hat, hfa]; intro hc; cases hc
          · refine ⟨some c, ?_⟩
            have hlt : ¬(attempt < retries) := by omega
            simp [safeExecAux, hfa, hlt]
      | exn =>
          right
          constructor
          · rw [← hat, hfa]; intro hc; cases hc
          · refine ⟨none, ?_⟩
            have hlt : ¬(attempt < retries) := by omega
            simp [safeExecAux, hfa, hlt]
  | succ m ih =>
      intro attempt trace hcnt hnok
      have hlt : attempt < retries := by omega
      have hnok2 : ∀ a, attempt + 1 ≤ a → a ≤ retries → ∀ v, func a ≠ .ok v :=
        fun a h1 h2 => hnok a (by omega) h2
      cases hfa : func attempt with
      | ok v => exact absurd hfa (hnok attempt (le_refl _) (by omega) v)
      | comBusy =>
          have := ih (attempt + 1) (trace ++ [.busySleep (rand attempt)])
            (by omega) hnok2
          simpa [safeExecAux, hfa] using this
      | comErr c =>
          have := ih (attempt + 1) (trace ++ [.errSleep 1]) (by omega) hnok2
          simpa [safeExecAux, hfa, hlt] using this
      | exn =>
          have := ih (attempt + 1) (trace ++ [.errSleep 1]) (by omega) hnok2
          simpa [safeExecAux, hfa, hlt] using this

theorem safeExecAux_congr_le (rand : Nat → Nat) (func func2 : Nat → AttemptResult)
    (retries : Nat) :
    ∀ fuel attempt trace, fuel + attempt = retries + 1 →
      (∀ a, a ≤ retries → func a = func2 a) →
      safeExecAux rand func retries fuel attempt trace =
        safeExecAux rand func2 retries fuel attempt trace := by
  intro fuel
  induction fuel with
  | zero => intro attempt trace hcnt hagree; rfl
  | succ n ih =>
      intro attempt trace hcnt hagree
      have hle : attempt ≤ retries := by omega
      have heq : func attempt = func2 attempt := hagree attempt hle
      cases hfa : func attempt with
      | ok v => simp [safeExecAux, hfa, heq ▸ hfa]
      | comBusy =>
          have hfa2 : func2 attempt = .comBusy := by rw [← heq]; exact hfa
          simp only [safeExecAux, hfa, hfa2]
          exact ih (attempt + 1) _ (by omega) hagree
      | comErr c =>
          have hfa2 : func2 attempt = .comErr c := by rw [← heq]; exact hfa
          simp only [safeExecAux, hfa, hfa2]
          split_ifs with hlt
          · exact ih (attempt + 1) _ (by omega) hagree
          · rfl
      | exn =>
          have hfa2 : func2 attempt = .exn := by rw [← heq]; exact hfa
          simp only [safeExecAux, hfa, hfa2]
          split_ifs with hlt
          · exact ih (attempt + 1) _ (by omega) hagree
          · rfl

/-- C4 counterexample: with `retries = 3` and a call that raises a
"server busy" COM error on every attempt, `_safe_exec` exhausts its
bounded attempt count and then returns normally (Python's implicit
`return None` after the `for` loop) instead of surfacing a failure: the
result is `ret none`, not `raised _`. -/
theorem c4_counterexample :
    safe_exec (fun _ => 2) (fun _ => AttemptResult.comBusy) 3 =
      (ExecResult.ret none,
        [SleepEv.busySleep 2, SleepEv.busySleep 2, SleepEv.busySleep 2,
          SleepEv.busySleep 2]) := by
  rfl

/-- C4 (amended): every recognized "server busy" error is retried with a
randomized 2-5 second backoff and every other error with a fixed 1 second
backoff, all within the same bounded attempt count (`retries + 1`
attempts; the result only depends on `func` below that bound); a success
result is only returned when some bounded attempt succeeded.  When the
bounded attempt count is exhausted without success, the call surfaces as
a raised failure if the final attempt's error was not "server busy",
but it returns `None` (no failure) when the final attempt's error was
"server busy". -/
theorem c4_amended_retry_behavior (rand : Nat → Nat)
    (func : Nat → AttemptResult) (retries : Nat)
    (hrand : ∀ n, 2 ≤ rand n ∧ rand n ≤ 5) :
    (∀ ev ∈ (safe_exec rand func retries).2,
        (∃ d, ev = .busySleep d ∧ 2 ≤ d ∧ d ≤ 5) ∨ ev = .errSleep 1) ∧
    (∀ v, (safe_exec rand func retries).1 = .ret (some v) →
        ∃ a, a ≤ retries ∧ func a = .ok v) ∧
    ((∀ a, a ≤ retries → ∀ v, func a ≠ .ok v) →
        ((func retries = .comBusy ∧
            (safe_exec rand func retries).1 = .ret none) ∨
         (func retries ≠ .comBusy ∧
            ∃ c, (safe_exec rand func retries).1 = .raised c))) ∧
    (∀ func2, (∀ a, a ≤ retries → func a = func2 a) →
        safe_exec rand func retries = safe_exec rand func2 retries) := by
  refine ⟨?_, ?_, ?_, ?_⟩
  · refine safeExecAux_trace_shape rand func retries _ ?_ ?_ _ 0 [] ?_
    · intro a
      exact Or.inl ⟨rand a, rfl, (hrand a).1, (hrand a).2⟩
    · exact Or.inr rfl
    · intro ev hev
      simp at hev
  · intro v h
    obtain ⟨a, ha1, ha2, ha3⟩ :=
      safeExecAux_ret_some rand func retries (retries + 1) 0 [] v h
    exact ⟨a, by omega, ha3⟩
  · intro hnok
    exact safeExecAux_exhaust rand func retries retries 0 [] (by omega)
      (fun a h1 h2 v => hnok a h2 v)
  · intro func2 hagree
    exact safeExecAux_congr_le rand func func2 retries (retries + 1) 0 []
      (by omega) hagree

/-- Witness for the amended C4 at a concrete instance: the randomized
backoff draws 3, the call raises a non-busy COM error on every attempt,
and `retries = 2`. -/
theorem c4_amended_retry_behavior_witness :
    (∀ ev ∈ (safe_exec (fun _ => 3) (fun _ => AttemptResult.comErr 5) 2).2,
        (∃ d, ev = .busySleep d ∧ 2 ≤ d ∧ d ≤ 5) ∨ ev = .errSleep 1) ∧
    (∀ v, (safe_exec (fun _ => 3) (fun _ => AttemptResult.comErr 5) 2).1 =
          .ret (some v) →
        ∃ a, a ≤ 2 ∧ (fun _ => AttemptResult.comErr 5) a = .ok v) ∧
    ((∀ a, a ≤ 2 → ∀ v, (fun _ => AttemptResult.comErr 5) a ≠ .ok v) →
        (((fun _ => AttemptResult.comErr 5) 2 = .comBusy ∧
            (safe_exec (fun _ => 3) (fun _ => AttemptResult.comErr 5) 2).1 =
              .ret none) ∨
         ((fun _ => AttemptResult.comErr 5) 2 ≠ .comBusy ∧
            ∃ c, (safe_exec (fun _ => 3) (fun _ => AttemptResult.comErr 5) 2).1 =
              .raised c))) ∧
    (∀ func2, (∀ a, a ≤ 2 → (fun _ => AttemptResult.comErr 5) a = func2 a) →
        safe_exec (fun _ => 3) (fun _ => AttemptResult.comErr 5) 2 =
          safe_exec (fun _ => 3) func2 2) :=
  c4_amended_retry_behavior (fun _ => 3) (fun _ => AttemptResult.comErr 5) 2
    (fun _ => ⟨by norm_num, by norm_num⟩)

/-! ## C5: zero-byte files are skipped before any work -/

/-- C5: a `WorkItem` of size zero is skipped as empty: the outcome is the
"跳过(0KB)" status with the unchanged initial target, the skipped counter
is incremented by one, and the side-effect trace is empty — no engine
call, no sandbox copy and no content scan happen. -/
theorem c5_zero_size_skip (cfg : PFConfig) (f : WorkFile) (scanHit : Bool)
    (eng : EngineOracle) (pdfAppears : Bool) (h : f.size = 0) :
    process_single_file cfg f scanHit eng pdfAppears =
      ⟨.skippedEmpty, initialTarget cfg f, [], 1, 0⟩ ∧
    (process_single_file cfg f scanHit eng pdfAppears).trace = [] ∧
    PFEvent.engineCall ∉ (process_single_file cfg f scanHit eng pdfAppears).trace ∧
    PFEvent.sandboxCopy ∉ (process_single_file cfg f scanHit eng pdfAppears).trace ∧
    (process_single_file cfg f scanHit eng pdfAppears).skippedInc = 1 := by
  have he : process_single_file cfg f scanHit eng pdfAppears =
      ⟨.skippedEmpty, initialTarget cfg f, [], 1, 0⟩ := by
    unfold process_single_file
    rw [if_pos h]
  refine ⟨he, ?_, ?_, ?_, ?_⟩ <;> rw [he] <;> simp

/-- Witness for C5: a concrete zero-byte Word file. -/
theorem c5_zero_size_skip_witness :
    (⟨[7], 5, 0, 1⟩ : WorkFile).size = 0 ∧
    (process_single_file ⟨.standard, [], true, [1], [2], [3], [0]⟩ ⟨[7], 5, 0, 1⟩
        false .finishes true =
      ⟨.skippedEmpty,
        initialTarget ⟨.standard, [], true, [1], [2], [3], [0]⟩ ⟨[7], 5, 0, 1⟩,
        [], 1, 0⟩ ∧
    (process_single_file ⟨.standard, [], true, [1], [2], [3], [0]⟩ ⟨[7], 5, 0, 1⟩
        false .finishes true).trace = [] ∧
    PFEvent.engineCall ∉ (process_single_file ⟨.standard, [], true, [1], [2], [3], [0]⟩
        ⟨[7], 5, 0, 1⟩ false .finishes true).trace ∧
    PFEvent.sandboxCopy ∉ (process_single_file ⟨.standard, [], true, [1], [2], [3], [0]⟩
        ⟨[7], 5, 0, 1⟩ false .finishes true).trace ∧
    (process_single_file ⟨.standard, [], true, [1], [2], [3], [0]⟩ ⟨[7], 5, 0, 1⟩
        false .finishes true).skippedInc = 1) :=
  ⟨rfl, c5_zero_size_skip ⟨.standard, [], true, [1], [2], [3], [0]⟩ ⟨[7], 5, 0, 1⟩
    false .finishes true rfl⟩

/-! ## C8: filename tagging takes precedence over content scanning -/

theorem afterConvert_trace (cfg : PFConfig) (f : WorkFile) (ip pa : Bool)
    (tr : List PFEvent) : (afterConvert cfg f ip pa tr).trace = tr := by
  unfold afterConvert
  split_ifs <;> rfl

theorem afterConvert_target_price (cfg : PFConfig) (f : WorkFile) (pa : Bool)
    (tr : List PFEvent) : (afterConvert cfg f true pa tr).target = priceTarget f := by
  cases pa <;> rfl

/-- C8: under a non-standard content strategy, a keyword hit in the file
name decides the category: the result is tagged `Price_` (whenever an
output is produced) and no content scan is performed; conversely a
content scan only ever happens when no keyword matched the filename. -/
theorem c8_filename_priority (cfg : PFConfig) (f : WorkFile) (scanHit : Bool)
    (eng : EngineOracle) (pdfAppears : Bool)
    (hstd : cfg.strategy ≠ .standard) (hsz : f.size ≠ 0) :
    (filenameMatch cfg f = true →
      PFEvent.contentScan ∉
        (process_single_file cfg f scanHit eng pdfAppears).trace ∧
      ((process_single_file cfg f scanHit eng pdfAppears).status = .placedOk →
        (process_single_file cfg f scanHit eng pdfAppears).target =
          priceTarget f)) ∧
    (PFEvent.contentScan ∈ (process_single_file cfg f scanHit eng pdfAppears).trace →
      filenameMatch cfg f = false) := by
  have key : filenameMatch cfg f = true →
      PFEvent.contentScan ∉
        (process_single_file cfg f scanHit eng pdfAppears).trace ∧
      ((process_single_file cfg f scanHit eng pdfAppears).status = .placedOk →
        (process_single_file cfg f scanHit eng pdfAppears).target =
          priceTarget f) := by
    intro hm
    by_cases hpdf : f.ext = pdfExtCode
    · have hr : process_single_file cfg f scanHit eng pdfAppears =
          afterConvert cfg f true pdfAppears
            (if cfg.sandbox then [PFEvent.sandboxCopy] else []) := by
        simp [process_single_file, hsz, hm, hpdf]
      rw [hr]
      constructor
      · rw [afterConvert_trace]
        split_ifs <;> simp
      · intro _
        exact afterConvert_target_price cfg f pdfAppears _
    · cases eng with
      | hangs =>
          have hr : process_single_file cfg f scanHit .hangs pdfAppears =
              ⟨.timedOut, initialTarget cfg f,
                (if cfg.sandbox then [PFEvent.sandboxCopy] else []) ++
                  [PFEvent.engineCall], 0, 1⟩ := by
            simp [process_single_file, hsz, hm, hpdf]
          rw [hr]
          constructor
          · split_ifs <;> simp
          · intro hc
            cases hc
      | finishes =>
          have hr : process_single_file cfg f scanHit .finishes pdfAppears =
              afterConvert cfg f true pdfAppears
                ((if cfg.sandbox then [PFEvent.sandboxCopy] else []) ++
                  [PFEvent.engineCall]) := by
            simp [process_single_file, hsz, hm, hpdf]
          rw [hr]
          constructor
          · rw [afterConvert_trace]
            split_ifs <;> simp
          · intro _
            exact afterConvert_target_price cfg f pdfAppears _
  refine ⟨key, ?_⟩
  intro hscan
  cases hm : filenameMatch cfg f with
  | false => rfl
  | true => exact absurd hscan ((key hm).1)

/-- Witness for C8: a smart-tag configuration whose single keyword `[4]`
occurs in the file name `[9, 4, 9]`. -/
theorem c8_filename_priority_witness :
    ((⟨.smartTag, [[4]], true, [1], [2], [3], [0]⟩ : PFConfig).strategy ≠
        .standard ∧ (⟨[9, 4, 9], 5, 77, 1⟩ : WorkFile).size ≠ 0) ∧
    ((filenameMatch ⟨.smartTag, [[4]], true, [1], [2], [3], [0]⟩
        ⟨[9, 4, 9], 5, 77, 1⟩ = true →
      PFEvent.contentScan ∉
        (process_single_file ⟨.smartTag, [[4]], true, [1], [2], [3], [0]⟩
          ⟨[9, 4, 9], 5, 77, 1⟩ true .finishes true).trace ∧
      ((process_single_file ⟨.smartTag, [[4]], true, [1], [2], [3], [0]⟩
          ⟨[9, 4, 9], 5, 77, 1⟩ true .finishes true).status = .placedOk →
        (process_single_file ⟨.smartTag, [[4]], true, [1], [2], [3], [0]⟩
          ⟨[9, 4, 9], 5, 77, 1⟩ true .finishes true).target =
          priceTarget ⟨[9, 4, 9], 5, 77, 1⟩)) ∧
    (PFEvent.contentScan ∈
        (process_single_file ⟨.smartTag, [[4]], true, [1], [2], [3], [0]⟩
          ⟨[9, 4, 9], 5, 77, 1⟩ true .finishes true).trace →
      filenameMatch ⟨.smartTag, [[4]], true, [1], [2], [3], [0]⟩
        ⟨[9, 4, 9], 5, 77, 1⟩ = false)) :=
  ⟨⟨by decide, by decide⟩,
    c8_filename_priority ⟨.smartTag, [[4]], true, [1], [2], [3], [0]⟩
      ⟨[9, 4, 9], 5, 77, 1⟩ true .finishes true (by decide) (by decide)⟩

/-! ## C6: combine-all merge produces one sorted volume -/

/-- C6: in combine-all mode, whenever the collection of PDF artifacts
under the target root (excluding the quarantine and merge-output folders)
is non-empty, exactly one output volume is produced; it is a permutation
of the collected artifacts in sorted path order, and under distinct paths
it contains every artifact exactly once. -/
theorem c6_combine_all_single_volume (failedDir mergeDir : Nat)
    (tree : List DirFile) (hne : collectAllPdfs failedDir mergeDir tree ≠ []) :
    ∃ vol, mergeAllInOne failedDir mergeDir tree = some vol ∧
      vol.Perm (collectAllPdfs failedDir mergeDir tree) ∧
      List.Sorted (· ≤ ·) vol ∧
      ((collectAllPdfs failedDir mergeDir tree).Nodup →
        ∀ p ∈ collectAllPdfs failedDir mergeDir tree, vol.count p = 1) := by
  refine ⟨(collectAllPdfs failedDir mergeDir tree).insertionSort (· ≤ ·),
    ?_, ?_, ?_, ?_⟩
  · simp only [mergeAllInOne]
    rw [if_neg hne]
  · exact List.perm_insertionSort _ _
  · exact List.sorted_insertionSort _ _
  · intro hnd p hp
    have h1 := List.perm_insertionSort (· ≤ ·)
      (collectAllPdfs failedDir mergeDir tree)
    rw [h1.count_eq]
    exact List.count_eq_one_of_mem hnd hp

/-- Witness for C6: a tree with two PDFs outside, one PDF inside the
quarantine folder and one non-PDF file. -/
theorem c6_combine_all_single_volume_witness :
    collectAllPdfs 5 6 [⟨0, 3, true⟩, ⟨0, 1, true⟩, ⟨5, 9, true⟩, ⟨0, 2, false⟩] ≠
      [] ∧
    ∃ vol, mergeAllInOne 5 6
        [⟨0, 3, true⟩, ⟨0, 1, true⟩, ⟨5, 9, true⟩, ⟨0, 2, false⟩] = some vol ∧
      vol.Perm (collectAllPdfs 5 6
        [⟨0, 3, true⟩, ⟨0, 1, true⟩, ⟨5, 9, true⟩, ⟨0, 2, false⟩]) ∧
      List.Sorted (· ≤ ·) vol ∧
      ((collectAllPdfs 5 6
          [⟨0, 3, true⟩, ⟨0, 1, true⟩, ⟨5, 9, true⟩, ⟨0, 2, false⟩]).Nodup →
        ∀ p ∈ collectAllPdfs 5 6
          [⟨0, 3, true⟩, ⟨0, 1, true⟩, ⟨5, 9, true⟩, ⟨0, 2, false⟩],
          vol.count p = 1) :=
  ⟨by decide,
    c6_combine_all_single_volume 5 6
      [⟨0, 3, true⟩, ⟨0, 1, true⟩, ⟨5, 9, true⟩, ⟨0, 2, false⟩] (by decide)⟩

/-! ## C7: the dedup copy phase is idempotent -/

theorem copyStep_lookup_mono (content : Nat → Nat) (fs : FS) (r : CopyRec)
    (p c : Nat) (h : fs.lookup p = some c) :
    (copyStep content fs r).lookup p = some c := by
  unfold copyStep
  split_ifs with hex
  · exact h
  · have hne : p ≠ r.dst := by
      intro hc
      rw [hc] at h
      rw [h] at hex
      simp at hex
    rw [lookup_writeFile_ne _ _ _ _ hne]
    exact h

theorem copyStep_dst_some (content : Nat → Nat) (fs : FS) (r : CopyRec) :
    ((copyStep content fs r).lookup r.dst).isSome := by
  unfold copyStep
  split_ifs with hex
  · exact hex
  · rw [lookup_writeFile_self]
    rfl

theorem copyStep_of_dst_some (content : Nat → Nat) (fs : FS) (r : CopyRec)
    (h : (fs.lookup r.dst).isSome) : copyStep content fs r = fs := by
  unfold copyStep
  rw [if_pos h]

theorem copyUniqueFiles_lookup_mono (content : Nat → Nat) (recs : List CopyRec) :
    ∀ (fs : FS) (p c : Nat), fs.lookup p = some c →
      (copyUniqueFiles content fs recs).lookup p = some c := by
  induction recs with
  | nil => intro fs p c h; exact h
  | cons r rest ih =>
      intro fs p c h
      exact ih (copyStep content fs r) p c (copyStep_lookup_mono content fs r p c h)

theorem copyUniqueFiles_isSome_mono (content : Nat → Nat) (recs : List CopyRec)
    (fs : FS) (p : Nat) (h : (fs.lookup p).isSome) :
    ((copyUniqueFiles content fs recs).lookup p).isSome := by
  cases hc : fs.lookup p with
  | none => rw [hc] at h; simp at h
  | some c =>
      rw [copyUniqueFiles_lookup_mono content recs fs p c hc]
      rfl

theorem copyUniqueFiles_dst_some (content : Nat → Nat) (recs : List CopyRec) :
    ∀ (fs : FS), ∀ r ∈ recs,
      ((copyUniqueFiles content fs recs).lookup r.dst).isSome := by
  induction recs with
  | nil => intro fs r hr; simp at hr
  | cons r0 rest ih =>
      intro fs r hr
      rcases List.mem_cons.1 hr with hr | hr
      · subst hr
        have h0 := copyStep_dst_some content fs r
        unfold copyUniqueFiles
        rw [List.foldl_cons]
        exact copyUniqueFiles_isSome_mono content rest _ r.dst h0
      · exact ih (copyStep content fs r0) r hr

/-- C7: the dedup copy phase copies a unique record only when its
destination does not yet exist, so pre-existing destination files are
never overwritten (their content is preserved verbatim), after one run
every record's destination exists, and a second run over the same records
changes nothing at all. -/
theorem c7_copy_idempotent (content : Nat → Nat) (fs : FS)
    (recs : List CopyRec) :
    (∀ p c, fs.lookup p = some c →
      (copyUniqueFiles content fs recs).lookup p = some c) ∧
    (∀ r ∈ recs, ((copyUniqueFiles content fs recs).lookup r.dst).isSome) ∧
    copyUniqueFiles content (copyUniqueFiles content fs recs) recs =
      copyUniqueFiles content fs recs := by
  refine ⟨fun p c h => copyUniqueFiles_lookup_mono content recs fs p c h,
    fun r hr => copyUniqueFiles_dst_some content recs fs r hr, ?_⟩
  have hgen : ∀ (l : List CopyRec) (g : FS),
      (∀ r ∈ l, ((FS.lookup g r.dst)).isSome) →
      copyUniqueFiles content g l = g := by
    intro l
    induction l with
    | nil => intro g _; rfl
    | cons r rest ih =>
        intro g hall
        unfold copyUniqueFiles
        rw [List.foldl_cons]
        rw [copyStep_of_dst_some content g r (hall r (List.mem_cons_self r rest))]
        exact ih g (fun r2 h2 => hall r2 (List.mem_cons_of_mem r h2))
  exact hgen recs (copyUniqueFiles content fs recs)
    (fun r hr => copyUniqueFiles_dst_some content recs fs r hr)

/-- Witness for C7 at a concrete state: one record copied, one skipped
because its destination already exists. -/
theorem c7_copy_idempotent_witness :
    (∀ p c, FS.lookup [(20, 9)] p = some c →
      (copyUniqueFiles (fun s => s + 1) [(20, 9)]
        [⟨1, 20⟩, ⟨2, 30⟩]).lookup p = some c) ∧
    (∀ r ∈ [(⟨1, 20⟩ : CopyRec), ⟨2, 30⟩],
      ((copyUniqueFiles (fun s => s + 1) [(20, 9)]
        [⟨1, 20⟩, ⟨2, 30⟩]).lookup r.dst).isSome) ∧
    copyUniqueFiles (fun s => s + 1)
        (copyUniqueFiles (fun s => s + 1) [(20, 9)] [⟨1, 20⟩, ⟨2, 30⟩])
        [⟨1, 20⟩, ⟨2, 30⟩] =
      copyUniqueFiles (fun s => s + 1) [(20, 9)] [⟨1, 20⟩, ⟨2, 30⟩] :=
  c7_copy_idempotent (fun s => s + 1) [(20, 9)] [⟨1, 20⟩, ⟨2, 30⟩]

/-! ## C9: quarantine on failure/timeout, only during the initial pass -/

theorem quarantine_appends (q : List QEntry) (fname sfxName srcPath : Nat) :
    ∃ e, quarantine_failed_file q fname sfxName srcPath true = q ++ [e] ∧
      e.src = srcPath ∧
      (fname ∈ q.map (·.name) → e.name = sfxName) ∧
      (fname ∉ q.map (·.name) → e.name = fname) := by
  unfold quarantine_failed_file
  by_cases hm : fname ∈ q.map (·.name)
  · refine ⟨⟨sfxName, srcPath⟩, ?_, rfl, fun _ => rfl, fun hc => absurd hm hc⟩
    simp [hm]
  · refine ⟨⟨fname, srcPath⟩, ?_, rfl, fun hc => absurd hc hm, fun _ => rfl⟩
    simp [hm]

theorem runBatchStep_q_mono (outcome : Nat → BatchOutcome) (sfx : Nat → Nat)
    (isRetry : Bool) (st : BatchState) (f : BatchFile) (e : QEntry)
    (h : e ∈ st.q) : e ∈ (runBatchStep outcome sfx isRetry st f).q := by
  unfold runBatchStep
  cases outcome f.path <;> [skip; skip; skip; skip] <;> dsimp only
  · exact h
  · exact h
  · split_ifs with hr
    · exact h
    · obtain ⟨e2, he2, _, _, _⟩ := quarantine_appends st.q f.name (sfx f.path) f.path
      dsimp only
      rw [he2]
      exact List.mem_append_left _ h
  · split_ifs with hr
    · exact h
    · obtain ⟨e2, he2, _, _, _⟩ := quarantine_appends st.q f.name (sfx f.path) f.path
      dsimp only
      rw [he2]
      exact List.mem_append_left _ h

theorem runBatchFold_q_mono (outcome : Nat → BatchOutcome) (sfx : Nat → Nat)
    (isRetry : Bool) (files : List BatchFile) :
    ∀ (st : BatchState) (e : QEntry), e ∈ st.q →
      e ∈ (files.foldl (runBatchStep outcome sfx isRetry) st).q := by
  induction files with
  | nil => intro st e h; exact h
  | cons f rest ih =>
      intro st e h
      rw [List.foldl_cons]
      exact ih _ e (runBatchStep_q_mono outcome sfx isRetry st f e h)

theorem runBatchStep_retry_q (outcome : Nat → BatchOutcome) (sfx : Nat → Nat)
    (st : BatchState) (f : BatchFile) :
    (runBatchStep outcome sfx true st f).q = st.q := by
  unfold runBatchStep
  cases outcome f.path <;> rfl

/-- C9: during the initial pass every file whose outcome is `Failed` or
`TimedOut` is copied into the quarantine folder (an entry whose source is
that file appears in the folder afterwards); the entry keeps the file's
base name unless that name is already present, in which case the
time-suffixed name is used; and a retry pass never quarantines anything:
the quarantine folder is left exactly as it was. -/
theorem c9_quarantine_failed_initial_only (outcome : Nat → BatchOutcome)
    (sfx : Nat → Nat) (files : List BatchFile) (q0 : List QEntry) :
    (∀ f ∈ files, (outcome f.path = .timedOutB ∨ outcome f.path = .failedB) →
      ∃ e ∈ (run_batch outcome sfx false files q0).q, e.src = f.path) ∧
    (run_batch outcome sfx true files q0).q = q0 ∧
    (∀ (q : List QEntry) (fname sfxName srcPath : Nat),
      ∃ e, quarantine_failed_file q fname sfxName srcPath true = q ++ [e] ∧
        e.src = srcPath ∧
        (fname ∈ q.map (·.name) → e.name = sfxName) ∧
        (fname ∉ q.map (·.name) → e.name = fname)) := by
  refine ⟨?_, ?_, fun q fname s src => quarantine_appends q fname s src⟩
  · have hgen : ∀ (l : List BatchFile) (st : BatchState), ∀ f ∈ l,
        (outcome f.path = .timedOutB ∨ outcome f.path = .failedB) →
        ∃ e ∈ (l.foldl (runBatchStep outcome sfx false) st).q, e.src = f.path := by
      intro l
      induction l with
      | nil => intro st f hf; simp at hf
      | cons g rest ih =>
          intro st f hf hbad
          rcases List.mem_cons.1 hf with hf | hf
          · subst hf
            rw [List.foldl_cons]
            have hstep : ∃ e ∈ (runBatchStep outcome sfx false st f).q,
                e.src = f.path := by
              unfold runBatchStep
              rcases hbad with hbad | hbad <;> rw [hbad] <;> dsimp only
              · obtain ⟨e2, he2, hsrc, _, _⟩ :=
                  quarantine_appends st.q f.name (sfx f.path) f.path
                rw [he2]
                exact ⟨e2, List.mem_append_right _ (by simp), hsrc⟩
              · obtain ⟨e2, he2, hsrc, _, _⟩ :=
                  quarantine_appends st.q f.name (sfx f.path) f.path
                rw [he2]
                exact ⟨e2, List.mem_append_right _ (by simp), hsrc⟩
            obtain ⟨e, he, hsrc⟩ := hstep
            exact ⟨e, runBatchFold_q_mono outcome sfx false rest _ e he, hsrc⟩
          · rw [List.foldl_cons]
            exact ih _ f hf hbad
    intro f hf hbad
    exact hgen files ⟨q0, [], 0, 0⟩ f hf hbad
  · have hgen : ∀ (l : List BatchFile) (st : BatchState),
        (l.foldl (runBatchStep outcome sfx true) st).q = st.q := by
      intro l
      induction l with
      | nil => intro st; rfl
      | cons g rest ih =>
          intro st
          rw [List.foldl_cons, ih, runBatchStep_retry_q]
    exact hgen files ⟨q0, [], 0, 0⟩

/-- Witness for C9: one failing file, one timed-out file, one success; the
quarantine folder already holds an entry named like the failing file. -/
theorem c9_quarantine_failed_initial_only_witness :
    (∀ f ∈ [(⟨1, 100⟩ : BatchFile), ⟨2, 100⟩, ⟨3, 200⟩],
      ((fun p => if p = 3 then BatchOutcome.okPlaced
        else if p = 1 then BatchOutcome.failedB
        else BatchOutcome.timedOutB) f.path = .timedOutB ∨
       (fun p => if p = 3 then BatchOutcome.okPlaced
        else if p = 1 then BatchOutcome.failedB
        else BatchOutcome.timedOutB) f.path = .failedB) →
      ∃ e ∈ (run_batch
        (fun p => if p = 3 then BatchOutcome.okPlaced
          else if p = 1 then BatchOutcome.failedB
          else BatchOutcome.timedOutB)
        (fun p => p + 1000) false
        [⟨1, 100⟩, ⟨2, 100⟩, ⟨3, 200⟩] [⟨100, 50⟩]).q, e.src = f.path) ∧
    (run_batch
      (fun p => if p = 3 then BatchOutcome.okPlaced
        else if p = 1 then BatchOutcome.failedB
        else BatchOutcome.timedOutB)
      (fun p => p + 1000) true
      [⟨1, 100⟩, ⟨2, 100⟩, ⟨3, 200⟩] [⟨100, 50⟩]).q = [⟨100, 50⟩] ∧
    (∀ (q : List QEntry) (fname sfxName srcPath : Nat),
      ∃ e, quarantine_failed_file q fname sfxName srcPath true = q ++ [e] ∧
        e.src = srcPath ∧
        (fname ∈ q.map (·.name) → e.name = sfxName) ∧
        (fname ∉ q.map (·.name) → e.name = fname)) :=
  c9_quarantine_failed_initial_only
    (fun p => if p = 3 then BatchOutcome.okPlaced
      else if p = 1 then BatchOutcome.failedB
      else BatchOutcome.timedOutB)
    (fun p => p + 1000) [⟨1, 100⟩, ⟨2, 100⟩, ⟨3, 200⟩] [⟨100, 50⟩]

/-! ## Grouping dict lemmas (for C1 and C10) -/

theorem findGroup_addGroup (k k2 : Nat) (f : FileEntry)
    (l : List (Nat × List FileEntry)) :
    findGroup k (addGroup k2 f l) =
      findGroup k l ++ (if k2 = k then [f] else []) := by
  induction l with
  | nil =>
      by_cases h : k2 = k <;> simp [addGroup, findGroup, h]
  | cons e rest ih =>
      simp only [addGroup]
      by_cases h12 : e.1 = k2
      · rw [if_pos h12]
        simp only [findGroup]
        by_cases h1k : e.1 = k
        · have hk2 : k2 = k := by rw [← h12]; exact h1k
          rw [if_pos h1k, if_pos h1k, if_pos hk2]
        · have hk2 : ¬(k2 = k) := by rw [← h12]; exact h1k
          rw [if_neg h1k, if_neg h1k, if_neg hk2, List.append_nil]
      · rw [if_neg h12]
        simp only [findGroup]
        by_cases h1k : e.1 = k
        · have hk2 : ¬(k2 = k) := by
            intro hc
            rw [hc] at h12
            exact h12 h1k
          rw [if_pos h1k, if_pos h1k, if_neg hk2, List.append_nil]
        · rw [if_neg h1k, if_neg h1k]
          exact ih

theorem findGroup_foldl (key : FileEntry → Nat) (files : List FileEntry) :
    ∀ (acc : List (Nat × List FileEntry)) (k : Nat),
      findGroup k (files.foldl (fun a f => addGroup (key f) f a) acc) =
        findGroup k acc ++ files.filter (fun f => key f = k) := by
  induction files with
  | nil => intro acc k; simp
  | cons f fs ih =>
      intro acc k
      rw [List.foldl_cons, ih (addGroup (key f) f acc) k, findGroup_addGroup]
      by_cases h : key f = k
      · simp [List.filter_cons, h, List.append_assoc]
      · simp [List.filter_cons, h]

theorem findGroup_groupsBy (key : FileEntry → Nat) (files : List FileEntry)
    (k : Nat) :
    findGroup k (groupsBy key files) = files.filter (fun f => key f = k) := by
  have h := findGroup_foldl key files [] k
  simpa [groupsBy, findGroup] using h

theorem keys_addGroup (k2 : Nat) (f : FileEntry)
    (l : List (Nat × List FileEntry)) :
    (addGroup k2 f l).map Prod.fst =
      if k2 ∈ l.map Prod.fst then l.map Prod.fst
      else l.map Prod.fst ++ [k2] := by
  induction l with
  | nil => simp [addGroup]
  | cons e rest ih =>
      simp only [addGroup]
      by_cases h : e.1 = k2
      · rw [if_pos h]
        have hm : k2 ∈ (e :: rest).map Prod.fst := by
          simp only [List.map_cons, List.mem_cons]
          exact Or.inl h.symm
        rw [if_pos hm]
        simp
      · rw [if_neg h]
        by_cases hm : k2 ∈ rest.map Prod.fst
        · have hm2 : k2 ∈ (e :: rest).map Prod.fst := by
            simp only [List.map_cons, List.mem_cons]
            exact Or.inr hm
          rw [if_pos hm2, List.map_cons, List.map_cons, ih, if_pos hm]
        · have hm2 : ¬(k2 ∈ (e :: rest).map Prod.fst) := by
            simp only [List.map_cons, List.mem_cons]
            rintro (hc | hc)
            · exact h hc.symm
            · exact hm hc
          rw [if_neg hm2, List.map_cons, List.map_cons, ih, if_neg hm,
            List.cons_append]

theorem mem_keys_addGroup (k k2 : Nat) (f : FileEntry)
    (l : List (Nat × List FileEntry)) :
    k ∈ (addGroup k2 f l).map Prod.fst ↔ k ∈ l.map Prod.fst ∨ k = k2 := by
  rw [keys_addGroup]
  split_ifs with hm
  · constructor
    · exact fun h => Or.inl h
    · rintro (h | h)
      · exact h
      · rw [h]; exact hm
  · simp

theorem keys_nodup_addGroup (k2 : Nat) (f : FileEntry)
    (l : List (Nat × List FileEntry)) (h : (l.map Prod.fst).Nodup) :
    ((addGroup k2 f l).map Prod.fst).Nodup := by
  rw [keys_addGroup]
  split_ifs with hm
  · exact h
  · simp [List.nodup_append, h, hm]

theorem keys_nodup_groupsBy (key : FileEntry → Nat) (files : List FileEntry) :
    ((groupsBy key files).map Prod.fst).Nodup := by
  have hgen : ∀ (l : List FileEntry) (acc : List (Nat × List FileEntry)),
      (acc.map Prod.fst).Nodup →
      (((l.foldl (fun a f => addGroup (key f) f a) acc)).map Prod.fst).Nodup := by
    intro l
    induction l with
    | nil => intro acc h; exact h
    | cons f fs ih =>
        intro acc h
        rw [List.foldl_cons]
        exact ih _ (keys_nodup_addGroup (key f) f acc h)
  exact hgen files [] (by simp)

theorem mem_keys_groupsBy (key : FileEntry → Nat) (files : List FileEntry)
    (k : Nat) :
    k ∈ (groupsBy key files).map Prod.fst ↔ ∃ f ∈ files, key f = k := by
  have hgen : ∀ (l : List FileEntry) (acc : List (Nat × List FileEntry)),
      (k ∈ ((l.foldl (fun a f => addGroup (key f) f a) acc)).map Prod.fst ↔
        k ∈ acc.map Prod.fst ∨ ∃ f ∈ l, key f = k) := by
    intro l
    induction l with
    | nil => intro acc; simp
    | cons f fs ih =>
        intro acc
        rw [List.foldl_cons, ih (addGroup (key f) f acc), mem_keys_addGroup]
        constructor
        · rintro ((h | h) | h)
          · exact Or.inl h
          · exact Or.inr ⟨f, by simp, h.symm⟩
          · obtain ⟨g, hg, hgk⟩ := h
            exact Or.inr ⟨g, by simp [hg], hgk⟩
        · rintro (h | h)
          · exact Or.inl (Or.inl h)
          · obtain ⟨g, hg, hgk⟩ := h
            rcases List.mem_cons.1 hg with hg1 | hg1
            · subst hg1
              exact Or.inl (Or.inr hgk.symm)
            · exact Or.inr ⟨g, hg1, hgk⟩
  rw [groupsBy, hgen files []]
  simp

theorem findGroup_eq_of_mem (l : List (Nat × List FileEntry))
    (hnd : (l.map Prod.fst).Nodup) (k : Nat) (ms : List FileEntry)
    (h : (k, ms) ∈ l) : findGroup k l = ms := by
  induction l with
  | nil => simp at h
  | cons e rest ih =>
      simp only [List.map_cons, List.nodup_cons] at hnd
      rcases List.mem_cons.1 h with h1 | h1
      · rw [← h1]
        simp [findGroup]
      · have hk : ¬(e.1 = k) := by
          intro hc
          apply hnd.1
          rw [hc]
          exact List.mem_map_of_mem Prod.fst h1
        simp only [findGroup, if_neg hk]
        exact ih hnd.2 h1

theorem mem_groupsBy_eq (key : FileEntry → Nat) (files : List FileEntry)
    (k : Nat) (ms : List FileEntry) (h : (k, ms) ∈ groupsBy key files) :
    ms = files.filter (fun f => key f = k) := by
  rw [← findGroup_groupsBy key files k]
  exact (findGroup_eq_of_mem _ (keys_nodup_groupsBy key files) k ms h).symm

theorem mem_groupsBy_ne_nil (key : FileEntry → Nat) (files : List FileEntry)
    (k : Nat) (ms : List FileEntry) (h : (k, ms) ∈ groupsBy key files) :
    ms ≠ [] := by
  have hk : k ∈ (groupsBy key files).map Prod.fst :=
    List.mem_map_of_mem Prod.fst h
  rw [mem_keys_groupsBy] at hk
  obtain ⟨f, hf, hfk⟩ := hk
  rw [mem_groupsBy_eq key files k ms h]
  intro hc
  have : f ∈ files.filter (fun f => key f = k) := by
    rw [List.mem_filter]
    exact ⟨hf, by simp [hfk]⟩
  rw [hc] at this
  simp at this

theorem flatten_addGroup_perm (k2 : Nat) (f : FileEntry)
    (l : List (Nat × List FileEntry)) :
    ((addGroup k2 f l).map Prod.snd).flatten.Perm
      ((l.map Prod.snd).flatten ++ [f]) := by
  induction l with
  | nil => simp [addGroup]
  | cons e rest ih =>
      simp only [addGroup]
      by_cases h : e.1 = k2
      · rw [if_pos h]
        simp only [List.map_cons, List.flatten_cons]
        rw [List.append_assoc, List.append_assoc]
        exact List.Perm.append_left _ List.perm_append_comm
      · rw [if_neg h]
        simp only [List.map_cons, List.flatten_cons]
        rw [List.append_assoc]
        exact List.Perm.append_left _ ih

theorem flatten_groupsBy_perm (key : FileEntry → Nat) (files : List FileEntry) :
    ((groupsBy key files).map Prod.snd).flatten.Perm files := by
  have hgen : ∀ (l : List FileEntry) (acc : List (Nat × List FileEntry)),
      (((l.foldl (fun a f => addGroup (key f) f a) acc)).map Prod.snd).flatten.Perm
        ((acc.map Prod.snd).flatten ++ l) := by
    intro l
    induction l with
    | nil => intro acc; simp
    | cons f fs ih =>
        intro acc
        rw [List.foldl_cons]
        refine (ih (addGroup (key f) f acc)).trans ?_
        have h1 := flatten_addGroup_perm (key f) f acc
        refine (h1.append_right fs).trans ?_
        rw [List.append_assoc]
        exact List.Perm.append_left _ (by simp)
  have h := hgen files []
  simpa [groupsBy] using h

/-! ## C10: the two report tables partition the scanned files -/

theorem srcs_processHashGroup (dstOf : Nat → Nat) (s : Nat) (st : CollectState)
    (same : List FileEntry) :
    (srcsOf (processHashGroup dstOf s st same)).Perm
      (srcsOf st ++ same.map (·.path)) := by
  match same with
  | [] => simp [processHashGroup]
  | [f] =>
      simp only [processHashGroup, srcsOf, List.map_append]
      rw [List.append_assoc, List.append_assoc]
      refine List.Perm.append_left _ ?_
      show ([f.path] ++ st.dups.map (·.src)).Perm
        (st.dups.map (·.src) ++ [f.path])
      exact List.perm_append_comm
  | keep :: d :: rest =>
      simp only [processHashGroup, srcsOf, List.map_append, List.map_map]
      rw [List.append_assoc, List.append_assoc]
      refine List.Perm.append_left _ ?_
      show ([keep.path] ++
          (st.dups.map (·.src) ++ (d :: rest).map (·.path))).Perm
        (st.dups.map (·.src) ++ (keep :: d :: rest).map (·.path))
      refine List.Perm.trans List.perm_append_comm ?_
      rw [List.append_assoc]
      refine List.Perm.append_left _ ?_
      show ((d :: rest).map (·.path) ++ [keep.path]).Perm
        ([keep.path] ++ (d :: rest).map (·.path))
      exact List.perm_append_comm

theorem srcs_hashFold (dstOf : Nat → Nat) (s : Nat)
    (Hs : List (Nat × List FileEntry)) :
    ∀ (st : CollectState),
      (srcsOf (Hs.foldl (fun st2 p => processHashGroup dstOf s st2 p.2) st)).Perm
        (srcsOf st ++ ((Hs.map Prod.snd).flatten).map (·.path)) := by
  induction Hs with
  | nil => intro st; simp
  | cons p rest ih =>
      intro st
      rw [List.foldl_cons]
      refine (ih (processHashGroup dstOf s st p.2)).trans ?_
      have h1 := srcs_processHashGroup dstOf s st p.2
      refine (h1.append_right _).trans ?_
      simp only [List.map_cons, List.flatten_cons, List.map_append]
      rw [List.append_assoc]

theorem srcs_processSizeGroup (dstOf : Nat → Nat) (st : CollectState) (s : Nat)
    (ms : List FileEntry) :
    (srcsOf (processSizeGroup dstOf st s ms)).Perm
      (srcsOf st ++ ms.map (·.path)) := by
  match ms with
  | [f] =>
      simp only [processSizeGroup, srcsOf, List.map_append]
      rw [List.append_assoc, List.append_assoc]
      refine List.Perm.append_left _ ?_
      show ([f.path] ++ st.dups.map (·.src)).Perm
        (st.dups.map (·.src) ++ [f.path])
      exact List.perm_append_comm
  | [] =>
      simp [processSizeGroup, groupsBy]
  | a :: b :: tl =>
      show (srcsOf ((groupsBy (·.hash) (a :: b :: tl)).foldl
        (fun st2 p => processHashGroup dstOf s st2 p.2)
        { st with hashed := st.hashed ++ (a :: b :: tl) })).Perm _
      refine (srcs_hashFold dstOf s _ _).trans ?_
      have hsrc : srcsOf { st with hashed := st.hashed ++ (a :: b :: tl) } =
          srcsOf st := rfl
      rw [hsrc]
      refine List.Perm.append_left _ ?_
      exact (flatten_groupsBy_perm (·.hash) (a :: b :: tl)).map (·.path)

theorem srcs_sizeFold (dstOf : Nat → Nat) (Gs : List (Nat × List FileEntry)) :
    ∀ (st : CollectState),
      (srcsOf (Gs.foldl (fun st2 p => processSizeGroup dstOf st2 p.1 p.2) st)).Perm
        (srcsOf st ++ ((Gs.map Prod.snd).flatten).map (·.path)) := by
  induction Gs with
  | nil => intro st; simp
  | cons p rest ih =>
      intro st
      rw [List.foldl_cons]
      refine (ih (processSizeGroup dstOf st p.1 p.2)).trans ?_
      have h1 := srcs_processSizeGroup dstOf st p.1 p.2
      refine (h1.append_right _).trans ?_
      simp only [List.map_cons, List.flatten_cons, List.map_append]
      rw [List.append_assoc]

theorem collectDedup_srcs_perm (dstOf : Nat → Nat) (F : List FileEntry) :
    (srcsOf (collectDedup dstOf F)).Perm (F.map (·.path)) := by
  unfold collectDedup
  refine (srcs_sizeFold dstOf (groupsBy (·.size) F) ⟨[], [], [], 1⟩).trans ?_
  have h1 : srcsOf ⟨[], [], [], 1⟩ = [] := rfl
  rw [h1, List.nil_append]
  exact (flatten_groupsBy_perm (·.size) F).map (·.path)

/-- C10: in collect mode (uncancelled run) the unique-record list and the
duplicate-record list partition the scanned files: their lengths add up to
the number of scanned files, and (for distinct source paths) every
scanned file's path appears in exactly one of the two lists. -/
theorem c10_partition (dstOf : Nat → Nat) (F : List FileEntry)
    (hnd : (F.map (·.path)).Nodup) :
    (collectDedup dstOf F).uniques.length +
      (collectDedup dstOf F).dups.length = F.length ∧
    ∀ f ∈ F,
      (f.path ∈ (collectDedup dstOf F).uniques.map (·.src) ∧
        f.path ∉ (collectDedup dstOf F).dups.map (·.src)) ∨
      (f.path ∉ (collectDedup dstOf F).uniques.map (·.src) ∧
        f.path ∈ (collectDedup dstOf F).dups.map (·.src)) := by
  have hperm := collectDedup_srcs_perm dstOf F
  constructor
  · have hl := hperm.length_eq
    simp only [srcsOf, List.length_append, List.length_map] at hl
    simpa using hl
  · intro f hf
    have hcnt : List.count f.path (srcsOf (collectDedup dstOf F)) = 1 := by
      rw [hperm.count_eq]
      exact List.count_eq_one_of_mem hnd (List.mem_map_of_mem (·.path) hf)
    rw [srcsOf, List.count_append] at hcnt
    rcases Nat.eq_zero_or_pos
        (List.count f.path ((collectDedup dstOf F).uniques.map (·.src))) with
      hu | hu
    · right
      have hd : List.count f.path ((collectDedup dstOf F).dups.map (·.src)) = 1 := by
        omega
      constructor
      · intro hc
        rw [← List.count_pos_iff_mem] at hc
        omega
      · rw [← List.count_pos_iff_mem, hd]
        omega
    · left
      have hd : List.count f.path ((collectDedup dstOf F).dups.map (·.src)) = 0 := by
        omega
      constructor
      · rw [← List.count_pos_iff_mem]
        omega
      · intro hc
        rw [← List.count_pos_iff_mem] at hc
        omega

/-- Witness for C10: Scenario A — two byte-identical 500000-byte reports
and one distinct 200000-byte workbook. -/
theorem c10_partition_witness :
    (([(⟨1, 500000, 11, 77⟩ : FileEntry), ⟨2, 500000, 11, 77⟩,
        ⟨3, 200000, 12, 88⟩].map (·.path)).Nodup) ∧
    ((collectDedup (fun p => p + 100)
        [⟨1, 500000, 11, 77⟩, ⟨2, 500000, 11, 77⟩,
          ⟨3, 200000, 12, 88⟩]).uniques.length +
      (collectDedup (fun p => p + 100)
        [⟨1, 500000, 11, 77⟩, ⟨2, 500000, 11, 77⟩,
          ⟨3, 200000, 12, 88⟩]).dups.length = 3 ∧
    ∀ f ∈ [(⟨1, 500000, 11, 77⟩ : FileEntry), ⟨2, 500000, 11, 77⟩,
        ⟨3, 200000, 12, 88⟩],
      (f.path ∈ (collectDedup (fun p => p + 100)
          [⟨1, 500000, 11, 77⟩, ⟨2, 500000, 11, 77⟩,
            ⟨3, 200000, 12, 88⟩]).uniques.map (·.src) ∧
        f.path ∉ (collectDedup (fun p => p + 100)
          [⟨1, 500000, 11, 77⟩, ⟨2, 500000, 11, 77⟩,
            ⟨3, 200000, 12, 88⟩]).dups.map (·.src)) ∨
      (f.path ∉ (collectDedup (fun p => p + 100)
          [⟨1, 500000, 11, 77⟩, ⟨2, 500000, 11, 77⟩,
            ⟨3, 200000, 12, 88⟩]).uniques.map (·.src) ∧
        f.path ∈ (collectDedup (fun p => p + 100)
          [⟨1, 500000, 11, 77⟩, ⟨2, 500000, 11, 77⟩,
            ⟨3, 200000, 12, 88⟩]).dups.map (·.src))) :=
  ⟨by decide,
    c10_partition (fun p => p + 100)
      [⟨1, 500000, 11, 77⟩, ⟨2, 500000, 11, 77⟩, ⟨3, 200000, 12, 88⟩]
      (by decide)⟩

/-! ## C1: duplicate classes, keep selection, and unique classification -/

theorem pathInj (F : List FileEntry) (hnd : (F.map (·.path)).Nodup) :
    ∀ x ∈ F, ∀ y ∈ F, x.path = y.path → x = y := by
  intro x hx y hy hxy
  exact List.inj_on_of_nodup_map hnd hx hy hxy

theorem mem_classOf (F : List FileEntry) (f y : FileEntry) :
    y ∈ classOf F f ↔ y ∈ F ∧ y.size = f.size ∧ y.hash = f.hash := by
  simp [classOf, sameClass, List.mem_filter]

theorem self_mem_classOf (F : List FileEntry) (f : FileEntry) (hf : f ∈ F) :
    f ∈ classOf F f :=
  (mem_classOf F f f).2 ⟨hf, rfl, rfl⟩

theorem classOf_ne_nil (F : List FileEntry) (f : FileEntry) (hf : f ∈ F) :
    classOf F f ≠ [] :=
  List.ne_nil_of_mem (self_mem_classOf F f hf)

theorem filter_eq_singleton_of_unique (F : List FileEntry)
    (p : FileEntry → Bool) (f : FileEntry) (hF : F.Nodup) (hf : f ∈ F)
    (hpf : p f = true) (hall : ∀ g ∈ F, p g = true → g = f) :
    F.filter p = [f] := by
  induction F with
  | nil => simp at hf
  | cons a rest ih =>
      rw [List.nodup_cons] at hF
      rcases List.mem_cons.1 hf with h1 | h1
      · rw [← h1]
        rw [List.filter_cons, if_pos hpf]
        have hrest : rest.filter p = [] := by
          rw [List.filter_eq_nil]
          intro g hg hpg
          have := hall g (List.mem_cons_of_mem a hg) hpg
          rw [this, h1] at hg
          exact hF.1 hg
        rw [hrest]
      · have hpa : p a = false := by
          by_contra hpa
          have hpa2 : p a = true := by
            cases hq : p a
            · exact absurd hq hpa
            · rfl
          have := hall a (List.mem_cons_self a rest) hpa2
          rw [this] at hF
          exact hF.1 h1
        rw [List.filter_cons, hpa]
        simp only [Bool.false_eq_true, if_false]
        exact ih hF.2 h1 (fun g hg hpg => hall g (List.mem_cons_of_mem a hg) hpg)

theorem classOf_eq_singleton (F : List FileEntry)
    (hnd : (F.map (·.path)).Nodup) (f : FileEntry) (hf : f ∈ F)
    (hun : ∀ g ∈ F, g.path ≠ f.path → ¬(g.size = f.size ∧ g.hash = f.hash)) :
    classOf F f = [f] := by
  have hF : F.Nodup := List.Nodup.of_map _ hnd
  apply filter_eq_singleton_of_unique F (sameClass f) f hF hf
  · simp [sameClass]
  · intro g hg hpg
    simp only [sameClass, Bool.and_eq_true, decide_eq_true_eq] at hpg
    by_cases hp : g.path = f.path
    · exact pathInj F hnd g hg f hf hp
    · exact absurd ⟨hpg.1, hpg.2⟩ (hun g hg hp)

theorem szFilter_eq_singleton (F : List FileEntry)
    (hnd : (F.map (·.path)).Nodup) (f : FileEntry) (hf : f ∈ F)
    (hun : ∀ g ∈ F, g.path ≠ f.path → g.size ≠ f.size) :
    szFilter F f = [f] := by
  have hF : F.Nodup := List.Nodup.of_map _ hnd
  apply filter_eq_singleton_of_unique F _ f hF hf
  · simp
  · intro g hg hpg
    simp only [decide_eq_true_eq] at hpg
    by_cases hp : g.path = f.path
    · exact pathInj F hnd g hg f hf hp
    · exact absurd hpg (hun g hg hp)

theorem uniqueNone_extend (dstOf : Nat → Nat) (st st2 : CollectState)
    (f : FileEntry) (us : List UniqueRecord)
    (hu2 : st2.uniques = st.uniques ++ us) (h : uniqueNone dstOf st f) :
    uniqueNone dstOf st2 f := by
  obtain ⟨u, hu, h1, h2, h3⟩ := h
  exact ⟨u, by rw [hu2]; exact List.mem_append_left _ hu, h1, h2, h3⟩

theorem groupIs_extend (dstOf : Nat → Nat) (st st2 : CollectState) (gid : Nat)
    (members : List FileEntry) (us : List UniqueRecord) (ds : List DupRecord)
    (hu2 : st2.uniques = st.uniques ++ us) (hd2 : st2.dups = st.dups ++ ds)
    (hus : ∀ u ∈ us, ¬(u.groupId = some gid))
    (hds : ∀ d ∈ ds, ¬(d.groupId = gid))
    (h : groupIs dstOf st gid members) :
    groupIs dstOf st2 gid members := by
  obtain ⟨k, tl, hm, hu, hd⟩ := h
  refine ⟨k, tl, hm, ?_, ?_⟩
  · rw [hu2, List.filter_append, hu]
    have h2 : us.filter (fun u => decide (u.groupId = some gid)) = [] := by
      rw [List.filter_eq_nil]
      intro u hu3
      simp only [decide_eq_true_eq]
      exact hus u hu3
    rw [h2, List.append_nil]
  · rw [hd2, List.filter_append, hd]
    have h2 : ds.filter (fun d => decide (d.groupId = gid)) = [] := by
      rw [List.filter_eq_nil]
      intro d hd3
      simp only [decide_eq_true_eq]
      exact hds d hd3
    rw [h2, List.append_nil]

theorem processHashGroup_inv (dstOf : Nat → Nat) (F : List FileEntry)
    (s : Nat) (SzDone HDone : List Nat) (h : Nat) (st : CollectState)
    (ms same : List FileEntry)
    (hndF : (F.map (·.path)).Nodup)
    (hms : ms = F.filter (fun y => decide (y.size = s)))
    (hms2 : 2 ≤ ms.length)
    (hsame : same = ms.filter (fun y => decide (y.hash = h)))
    (hsne : same ≠ [])
    (hinv : DedupInv dstOf F st (SzDone ++ [s]) (ClsInner SzDone s HDone)) :
    DedupInv dstOf F (processHashGroup dstOf s st same) (SzDone ++ [s])
      (ClsInner SzDone s (HDone ++ [h])) := by
  have hsameF : same = F.filter
      (fun y => decide (y.hash = h) && decide (y.size = s)) := by
    rw [hsame, hms, List.filter_filter]
  have hmemsame : ∀ x, x ∈ same ↔ x ∈ F ∧ x.hash = h ∧ x.size = s := by
    intro x
    rw [hsameF, List.mem_filter]
    simp
  have hclass : ∀ x ∈ same, classOf F x = same := by
    intro x hx
    obtain ⟨hxF, hxh, hxs⟩ := (hmemsame x).1 hx
    rw [hsameF]
    unfold classOf
    apply List.filter_congr
    intro y _
    unfold sameClass
    rw [hxs, hxh, Bool.and_comm]
  have hnewCls : ∀ g ∈ F, ClsInner SzDone s (HDone ++ [h]) g →
      ClsInner SzDone s HDone g ∨ g ∈ same := by
    intro g hg hcls
    rcases hcls with hcls | ⟨hgs, hgh⟩
    · exact Or.inl (Or.inl hcls)
    · rcases List.mem_append.1 hgh with hgh | hgh
      · exact Or.inl (Or.inr ⟨hgs, hgh⟩)
      · simp only [List.mem_singleton] at hgh
        exact Or.inr ((hmemsame g).2 ⟨hg, hgh, hgs⟩)
  have hClsMono : ∀ g, ClsInner SzDone s HDone g →
      ClsInner SzDone s (HDone ++ [h]) g := by
    intro g hg
    rcases hg with hg | ⟨h1, h2⟩
    · exact Or.inl hg
    · exact Or.inr ⟨h1, List.mem_append_left _ h2⟩
  cases same with
  | nil => exact absurd rfl hsne
  | cons a tl =>
  cases tl with
  | nil =>
      -- singleton hash group: one unique record without a group id
      have ha : a ∈ [a] := by simp
      have haF : a ∈ F := ((hmemsame a).1 ha).1
      have haClass : classOf F a = [a] := hclass a ha
      set U : UniqueRecord := ⟨none, a.path, dstOf a.path, s, a.ext⟩ with hU
      have hst2 : processHashGroup dstOf s st [a] =
          { st with uniques := st.uniques ++ [U] } := rfl
      rw [hst2]
      have hu2 : ({ st with uniques := st.uniques ++ [U] } :
          CollectState).uniques = st.uniques ++ [U] := rfl
      have hd2 : ({ st with uniques := st.uniques ++ [U] } :
          CollectState).dups = st.dups ++ [] := by simp
      refine ⟨?_, ?_, ?_, ?_, ?_, ?_, ?_, ?_⟩
      · exact fun g hg h1 h2 => hinv.notHashed g hg h1 h2
      · exact hinv.hashedSz
      · intro g hg hcls hsing
        rcases hnewCls g hg hcls with hcls2 | hmem
        · exact uniqueNone_extend dstOf st _ g [U] hu2
            (hinv.uniqueSingleton g hg hcls2 hsing)
        · simp only [List.mem_singleton] at hmem
          subst hmem
          exact ⟨U, by rw [hu2]; exact List.mem_append_right _ (by simp),
            rfl, rfl, rfl⟩
      · intro g hg hcls hnsing
        rcases hnewCls g hg hcls with hcls2 | hmem
        · obtain ⟨gid, hg1, hg2, hgIs⟩ := hinv.groupMulti g hg hcls2 hnsing
          refine ⟨gid, hg1, hg2, ?_⟩
          refine groupIs_extend dstOf st _ gid _ [U] [] hu2 hd2 ?_ ?_ hgIs
          · intro u hu
            simp only [List.mem_singleton] at hu
            subst hu
            simp [hU]
          · intro d hd
            simp at hd
        · simp only [List.mem_singleton] at hmem
          subst hmem
          exact absurd (hclass g (by simp)) hnsing
      · intro u hu g hg
        rcases List.mem_append.1 hu with hu | hu
        · exact hinv.gidRangeU u hu g hg
        · simp only [List.mem_singleton] at hu
          subst hu
          simp [hU] at hg
      · exact hinv.gidRangeD
      · intro gid h1 h2
        obtain ⟨f0, hf0, hcls0, hns0, hgIs0⟩ := hinv.gidSound gid h1 h2
        refine ⟨f0, hf0, hClsMono f0 hcls0, hns0, ?_⟩
        refine groupIs_extend dstOf st _ gid _ [U] [] hu2 hd2 ?_ ?_ hgIs0
        · intro u hu
          simp only [List.mem_singleton] at hu
          subst hu
          simp [hU]
        · intro d hd
          simp at hd
      · exact hinv.oneLe
  | cons b tl2 =>
      -- a real duplicate group: keep record plus duplicate records
      have hka : a ∈ a :: b :: tl2 := by simp
      have hkF : a ∈ F := ((hmemsame a).1 hka).1
      have hks : a.size = s := ((hmemsame a).1 hka).2.2
      have hkh : a.hash = h := ((hmemsame a).1 hka).2.1
      have hkClass : classOf F a = a :: b :: tl2 := hclass a hka
      set K : UniqueRecord :=
        ⟨some st.nextGid, a.path, dstOf a.path, s, a.ext⟩ with hK
      set DR : List DupRecord := (b :: tl2).map
        (fun d => ⟨st.nextGid, d.path, s, d.ext, a.path, dstOf a.path⟩) with hDR
      have hst2 : processHashGroup dstOf s st (a :: b :: tl2) =
          ⟨st.uniques ++ [K], st.dups ++ DR, st.hashed, st.nextGid + 1⟩ := rfl
      rw [hst2]
      set st2 : CollectState :=
        ⟨st.uniques ++ [K], st.dups ++ DR, st.hashed, st.nextGid + 1⟩
        with hst2def
      have hu2 : st2.uniques = st.uniques ++ [K] := rfl
      have hd2 : st2.dups = st.dups ++ DR := rfl
      have hng : st2.nextGid = st.nextGid + 1 := rfl
      have hDRgid : ∀ d ∈ DR, d.groupId = st.nextGid := by
        intro d hd
        rw [hDR] at hd
        obtain ⟨x, _, hx⟩ := List.mem_map.1 hd
        rw [← hx]
      have hnewIs : groupIs dstOf st2 st.nextGid (a :: b :: tl2) := by
        refine ⟨a, b :: tl2, rfl, ?_, ?_⟩
        · rw [hu2, List.filter_append]
          have hnil : st.uniques.filter
              (fun u => decide (u.groupId = some st.nextGid)) = [] := by
            rw [List.filter_eq_nil]
            intro u hu
            simp only [decide_eq_true_eq]
            intro hc
            have := (hinv.gidRangeU u hu st.nextGid hc).2
            omega
          rw [hnil, List.nil_append]
          have hKf : [K].filter
              (fun u => decide (u.groupId = some st.nextGid)) = [K] := by
            simp [hK]
          rw [hKf]
          simp [keepRec, hK, hks]
        · rw [hd2, List.filter_append]
          have hnil : st.dups.filter
              (fun d => decide (d.groupId = st.nextGid)) = [] := by
            rw [List.filter_eq_nil]
            intro d hd
            simp only [decide_eq_true_eq]
            intro hc
            have := (hinv.gidRangeD d hd).2
            omega
          rw [hnil, List.nil_append]
          have hDRf : DR.filter (fun d => decide (d.groupId = st.nextGid)) =
              DR := by
            rw [List.filter_eq_self]
            intro d hd
            simp only [decide_eq_true_eq]
            exact hDRgid d hd
          rw [hDRf, hDR]
          apply List.map_congr_left
          intro d _
          simp [dupRecOf, hks]
      refine ⟨?_, ?_, ?_, ?_, ?_, ?_, ?_, ?_⟩
      · exact fun g hg h1 h2 => hinv.notHashed g hg h1 h2
      · exact hinv.hashedSz
      · intro g hg hcls hsing
        rcases hnewCls g hg hcls with hcls2 | hmem
        · exact uniqueNone_extend dstOf st _ g [K] hu2
            (hinv.uniqueSingleton g hg hcls2 hsing)
        · rw [hclass g hmem] at hsing
          cases hsing
      · intro g hg hcls hnsing
        rcases hnewCls g hg hcls with hcls2 | hmem
        · obtain ⟨gid, hg1, hg2, hgIs⟩ := hinv.groupMulti g hg hcls2 hnsing
          refine ⟨gid, hg1, by omega, ?_⟩
          refine groupIs_extend dstOf st st2 gid _ [K] DR hu2 hd2 ?_ ?_ hgIs
          · intro u hu
            simp only [List.mem_singleton] at hu
            subst hu
            simp only [hK, Option.some.injEq]
            omega
          · intro d hd
            rw [hDRgid d hd]
            omega
        · refine ⟨st.nextGid, hinv.oneLe, by omega, ?_⟩
          rw [hclass g hmem]
          exact hnewIs
      · intro u hu g hg
        rcases List.mem_append.1 hu with hu | hu
        · have := hinv.gidRangeU u hu g hg
          omega
        · simp only [List.mem_singleton] at hu
          subst hu
          simp only [hK, Option.some.injEq] at hg
          have := hinv.oneLe
          omega
      · intro d hd
        rcases List.mem_append.1 hd with hd | hd
        · have := hinv.gidRangeD d hd
          omega
        · rw [hDRgid d hd]
          have := hinv.oneLe
          omega
      · intro gid h1 h2
        by_cases hgid : gid = st.nextGid
        · subst hgid
          refine ⟨a, hkF, Or.inr ⟨hks, List.mem_append_right _ (by simp [hkh])⟩,
            ?_, ?_⟩
          · rw [hkClass]
            simp
          · rw [hkClass]
            exact hnewIs
        · have h2b : gid < st.nextGid := by omega
          obtain ⟨f0, hf0, hcls0, hns0, hgIs0⟩ := hinv.gidSound gid h1 h2b
          refine ⟨f0, hf0, hClsMono f0 hcls0, hns0, ?_⟩
          refine groupIs_extend dstOf st st2 gid _ [K] DR hu2 hd2 ?_ ?_ hgIs0
          · intro u hu
            simp only [List.mem_singleton] at hu
            subst hu
            simp only [hK, Option.some.injEq]
            omega
          · intro d hd
            rw [hDRgid d hd]
            omega
      · have := hinv.oneLe
        show 1 ≤ st.nextGid + 1
        omega

theorem dedup_innerFold (dstOf : Nat → Nat) (F : List FileEntry) (s : Nat)
    (SzDone : List Nat) (ms : List FileEntry)
    (hndF : (F.map (·.path)).Nodup)
    (hms : ms = F.filter (fun y => decide (y.size = s)))
    (hms2 : 2 ≤ ms.length) :
    ∀ (Hs : List (Nat × List FileEntry)) (HDone : List Nat) (st : CollectState),
      (∀ p ∈ Hs, p.2 = ms.filter (fun y => decide (y.hash = p.1)) ∧
        p.2 ≠ [] ∧ p.1 ∉ HDone) →
      (Hs.map Prod.fst).Nodup →
      DedupInv dstOf F st (SzDone ++ [s]) (ClsInner SzDone s HDone) →
      DedupInv dstOf F
        (Hs.foldl (fun st2 p => processHashGroup dstOf s st2 p.2) st)
        (SzDone ++ [s]) (ClsInner SzDone s (HDone ++ Hs.map Prod.fst)) := by
  intro Hs
  induction Hs with
  | nil =>
      intro HDone st hconds hkeys hinv
      simpa using hinv
  | cons p rest ih =>
      intro HDone st hconds hkeys hinv
      rw [List.foldl_cons]
      obtain ⟨hp1, hp2, hp3⟩ := hconds p (List.mem_cons_self p rest)
      have hstep := processHashGroup_inv dstOf F s SzDone HDone p.1 st ms p.2
        hndF hms hms2 hp1 hp2 hinv
      simp only [List.map_cons, List.nodup_cons] at hkeys
      have hconds2 : ∀ q ∈ rest,
          q.2 = ms.filter (fun y => decide (y.hash = q.1)) ∧
          q.2 ≠ [] ∧ q.1 ∉ HDone ++ [p.1] := by
        intro q hq
        obtain ⟨hq1, hq2, hq3⟩ := hconds q (List.mem_cons_of_mem p hq)
        refine ⟨hq1, hq2, ?_⟩
        intro hc
        rcases List.mem_append.1 hc with hc | hc
        · exact hq3 hc
        · simp only [List.mem_singleton] at hc
          apply hkeys.1
          rw [← hc]
          exact List.mem_map_of_mem Prod.fst hq
      have hres := ih (HDone ++ [p.1]) (processHashGroup dstOf s st p.2)
        hconds2 hkeys.2 hstep
      have hl : (HDone ++ [p.1]) ++ rest.map Prod.fst =
          HDone ++ (p.1 :: rest.map Prod.fst) := by simp
      rw [hl] at hres
      exact hres

theorem processSizeGroup_inv (dstOf : Nat → Nat) (F : List FileEntry)
    (st : CollectState) (s : Nat) (ms : List FileEntry) (SzDone : List Nat)
    (hndF : (F.map (·.path)).Nodup)
    (hms : ms = F.filter (fun y => decide (y.size = s)))
    (hne : ms ≠ []) (hsnew : s ∉ SzDone)
    (hinv : DedupInv dstOf F st SzDone (ClsSz SzDone)) :
    DedupInv dstOf F (processSizeGroup dstOf st s ms) (SzDone ++ [s])
      (ClsSz (SzDone ++ [s])) := by
  have hF : F.Nodup := List.Nodup.of_map _ hndF
  have hmemms : ∀ x, x ∈ ms ↔ x ∈ F ∧ x.size = s := by
    intro x
    rw [hms, List.mem_filter]
    simp
  cases ms with
  | nil => exact absurd rfl hne
  | cons a tl =>
  cases tl with
  | nil =>
      -- size-unique file: unique record, never hashed
      have haF : a ∈ F := ((hmemms a).1 (by simp)).1
      have has : a.size = s := ((hmemms a).1 (by simp)).2
      have honly : ∀ g, g ∈ F → g.size = s → g = a := by
        intro g hg hgs
        have : g ∈ [a] := by
          rw [hms]
          rw [List.mem_filter]
          simp [hg, hgs]
        simpa using this
      have haClass : classOf F a = [a] := by
        apply filter_eq_singleton_of_unique F (sameClass a) a hF haF
        · simp [sameClass]
        · intro g hg hpg
          simp only [sameClass, Bool.and_eq_true, decide_eq_true_eq] at hpg
          exact honly g hg (by rw [hpg.1, has])
      set U : UniqueRecord := ⟨none, a.path, dstOf a.path, s, a.ext⟩ with hU
      have hst2 : processSizeGroup dstOf st s [a] =
          { st with uniques := st.uniques ++ [U] } := rfl
      rw [hst2]
      have hu2 : ({ st with uniques := st.uniques ++ [U] } :
          CollectState).uniques = st.uniques ++ [U] := rfl
      have hd2 : ({ st with uniques := st.uniques ++ [U] } :
          CollectState).dups = st.dups ++ [] := by simp
      refine ⟨?_, ?_, ?_, ?_, ?_, ?_, ?_, ?_⟩
      · intro g hg hsz hsing
        rcases List.mem_append.1 hsz with hsz | hsz
        · exact hinv.notHashed g hg hsz hsing
        · simp only [List.mem_singleton] at hsz
          have hga : g = a := honly g hg hsz
          subst hga
          intro hc
          have := hinv.hashedSz g hc
          rw [hsz] at this
          exact hsnew this
      · intro x hx
        exact List.mem_append_left _ (hinv.hashedSz x hx)
      · intro g hg hcls hsing
        rcases List.mem_append.1 hcls with hcls | hcls
        · exact uniqueNone_extend dstOf st _ g [U] hu2
            (hinv.uniqueSingleton g hg hcls hsing)
        · simp only [List.mem_singleton] at hcls
          have hga : g = a := honly g hg hcls
          subst hga
          exact ⟨U, by rw [hu2]; exact List.mem_append_right _ (by simp),
            rfl, rfl, rfl⟩
      · intro g hg hcls hnsing
        rcases List.mem_append.1 hcls with hcls | hcls
        · obtain ⟨gid, hg1, hg2, hgIs⟩ := hinv.groupMulti g hg hcls hnsing
          refine ⟨gid, hg1, hg2, ?_⟩
          refine groupIs_extend dstOf st _ gid _ [U] [] hu2 hd2 ?_ ?_ hgIs
          · intro u hu
            simp only [List.mem_singleton] at hu
            subst hu
            simp [hU]
          · intro d hd
            simp at hd
        · simp only [List.mem_singleton] at hcls
          have hga : g = a := honly g hg hcls
          subst hga
          exact absurd haClass hnsing
      · intro u hu g hg
        rcases List.mem_append.1 hu with hu | hu
        · exact hinv.gidRangeU u hu g hg
        · simp only [List.mem_singleton] at hu
          subst hu
          simp [hU] at hg
      · exact hinv.gidRangeD
      · intro gid h1 h2
        obtain ⟨f0, hf0, hcls0, hns0, hgIs0⟩ := hinv.gidSound gid h1 h2
        refine ⟨f0, hf0, List.mem_append_left _ hcls0, hns0, ?_⟩
        refine groupIs_extend dstOf st _ gid _ [U] [] hu2 hd2 ?_ ?_ hgIs0
        · intro u hu
          simp only [List.mem_singleton] at hu
          subst hu
          simp [hU]
        · intro d hd
          simp at hd
      · exact hinv.oneLe
  | cons b tl2 =>
      -- a size group with at least two members: hash everything, then
      -- process the hash groups in insertion order
      have hlen : 2 ≤ (a :: b :: tl2).length := by simp
      have hst2 : processSizeGroup dstOf st s (a :: b :: tl2) =
          (groupsBy (·.hash) (a :: b :: tl2)).foldl
            (fun st2 p => processHashGroup dstOf s st2 p.2)
            { st with hashed := st.hashed ++ (a :: b :: tl2) } := rfl
      rw [hst2]
      set st1 : CollectState :=
        { st with hashed := st.hashed ++ (a :: b :: tl2) } with hst1
      have hinv1 : DedupInv dstOf F st1 (SzDone ++ [s]) (ClsInner SzDone s []) := by
        refine ⟨?_, ?_, ?_, ?_, ?_, ?_, ?_, ?_⟩
        · intro g hg hsz hsing
          rcases List.mem_append.1 hsz with hsz | hsz
          · intro hc
            rcases List.mem_append.1 hc with hc | hc
            · exact hinv.notHashed g hg hsz hsing hc
            · have hgs : g.size = s := ((hmemms g).1 hc).2
              rw [hgs] at hsz
              exact hsnew hsz
          · simp only [List.mem_singleton] at hsz
            have hgms : g ∈ (a :: b :: tl2) := (hmemms g).2 ⟨hg, hsz⟩
            exfalso
            have hsf : szFilter F g = a :: b :: tl2 := by
              unfold szFilter
              rw [hsz, ← hms]
            rw [hsf] at hsing
            cases hsing
        · intro x hx
          rcases List.mem_append.1 hx with hx | hx
          · exact List.mem_append_left _ (hinv.hashedSz x hx)
          · have := ((hmemms x).1 hx).2
            exact List.mem_append_right _ (by simp [this])
        · intro g hg hcls hsing
          rcases hcls with hcls | ⟨_, hc⟩
          · exact hinv.uniqueSingleton g hg hcls hsing
          · simp at hc
        · intro g hg hcls hnsing
          rcases hcls with hcls | ⟨_, hc⟩
          · exact hinv.groupMulti g hg hcls hnsing
          · simp at hc
        · exact hinv.gidRangeU
        · exact hinv.gidRangeD
        · intro gid h1 h2
          obtain ⟨f0, hf0, hcls0, hns0, hgIs0⟩ := hinv.gidSound gid h1 h2
          exact ⟨f0, hf0, Or.inl hcls0, hns0, hgIs0⟩
        · exact hinv.oneLe
      have hfold := dedup_innerFold dstOf F s SzDone (a :: b :: tl2) hndF hms
        hlen (groupsBy (·.hash) (a :: b :: tl2)) [] st1
        (fun p hp => ⟨mem_groupsBy_eq _ _ _ _ hp,
          mem_groupsBy_ne_nil _ _ _ _ hp, by simp⟩)
        (keys_nodup_groupsBy _ _) hinv1
      simp only [List.nil_append] at hfold
      set st3 := (groupsBy (·.hash) (a :: b :: tl2)).foldl
        (fun st2 p => processHashGroup dstOf s st2 p.2) st1 with hst3
      have hhashkeys : ∀ g ∈ F, g.size = s →
          g.hash ∈ (groupsBy (·.hash) (a :: b :: tl2)).map Prod.fst := by
        intro g hg hgs
        rw [mem_keys_groupsBy]
        exact ⟨g, (hmemms g).2 ⟨hg, hgs⟩, rfl⟩
      refine ⟨?_, ?_, ?_, ?_, ?_, ?_, ?_, ?_⟩
      · exact hfold.notHashed
      · exact hfold.hashedSz
      · intro g hg hcls hsing
        rcases List.mem_append.1 hcls with hcls | hcls
        · exact hfold.uniqueSingleton g hg (Or.inl hcls) hsing
        · simp only [List.mem_singleton] at hcls
          exact hfold.uniqueSingleton g hg
            (Or.inr ⟨hcls, hhashkeys g hg hcls⟩) hsing
      · intro g hg hcls hnsing
        rcases List.mem_append.1 hcls with hcls | hcls
        · exact hfold.groupMulti g hg (Or.inl hcls) hnsing
        · simp only [List.mem_singleton] at hcls
          exact hfold.groupMulti g hg
            (Or.inr ⟨hcls, hhashkeys g hg hcls⟩) hnsing
      · exact hfold.gidRangeU
      · exact hfold.gidRangeD
      · intro gid h1 h2
        obtain ⟨f0, hf0, hcls0, hns0, hgIs0⟩ := hfold.gidSound gid h1 h2
        refine ⟨f0, hf0, ?_, hns0, hgIs0⟩
        rcases hcls0 with hcls0 | ⟨hs0, _⟩
        · exact List.mem_append_left _ hcls0
        · exact List.mem_append_right _ (by simp [hs0])
      · exact hfold.oneLe

theorem dedup_outerFold (dstOf : Nat → Nat) (F : List FileEntry)
    (hndF : (F.map (·.path)).Nodup) :
    ∀ (Gs : List (Nat × List FileEntry)) (SzDone : List Nat)
      (st : CollectState),
      (∀ p ∈ Gs, p.2 = F.filter (fun y => decide (y.size = p.1)) ∧
        p.2 ≠ [] ∧ p.1 ∉ SzDone) →
      (Gs.map Prod.fst).Nodup →
      DedupInv dstOf F st SzDone (ClsSz SzDone) →
      DedupInv dstOf F
        (Gs.foldl (fun st2 p => processSizeGroup dstOf st2 p.1 p.2) st)
        (SzDone ++ Gs.map Prod.fst) (ClsSz (SzDone ++ Gs.map Prod.fst)) := by
  intro Gs
  induction Gs with
  | nil =>
      intro SzDone st hconds hkeys hinv
      simpa using hinv
  | cons p rest ih =>
      intro SzDone st hconds hkeys hinv
      rw [List.foldl_cons]
      obtain ⟨hp1, hp2, hp3⟩ := hconds p (List.mem_cons_self p rest)
      have hstep := processSizeGroup_inv dstOf F st p.1 p.2 SzDone hndF hp1
        hp2 hp3 hinv
      simp only [List.map_cons, List.nodup_cons] at hkeys
      have hconds2 : ∀ q ∈ rest,
          q.2 = F.filter (fun y => decide (y.size = q.1)) ∧
          q.2 ≠ [] ∧ q.1 ∉ SzDone ++ [p.1] := by
        intro q hq
        obtain ⟨hq1, hq2, hq3⟩ := hconds q (List.mem_cons_of_mem p hq)
        refine ⟨hq1, hq2, ?_⟩
        intro hc
        rcases List.mem_append.1 hc with hc | hc
        · exact hq3 hc
        · simp only [List.mem_singleton] at hc
          apply hkeys.1
          rw [← hc]
          exact List.mem_map_of_mem Prod.fst hq
      have hres := ih (SzDone ++ [p.1]) (processSizeGroup dstOf st p.1 p.2)
        hconds2 hkeys.2 hstep
      have hl : (SzDone ++ [p.1]) ++ rest.map Prod.fst =
          SzDone ++ (p.1 :: rest.map Prod.fst) := by simp
      rw [hl] at hres
      exact hres

theorem collectDedup_inv (dstOf : Nat → Nat) (F : List FileEntry)
    (hndF : (F.map (·.path)).Nodup) :
    DedupInv dstOf F (collectDedup dstOf F)
      ((groupsBy (·.size) F).map Prod.fst)
      (ClsSz ((groupsBy (·.size) F).map Prod.fst)) := by
  have hinit : DedupInv dstOf F ⟨[], [], [], 1⟩ [] (ClsSz []) := by
    refine ⟨?_, ?_, ?_, ?_, ?_, ?_, ?_, ?_⟩
    · intro g _ hsz
      simp at hsz
    · intro x hx
      simp at hx
    · intro g _ hcls
      simp [ClsSz] at hcls
    · intro g _ hcls
      simp [ClsSz] at hcls
    · intro u hu
      simp at hu
    · intro d hd
      simp at hd
    · intro gid h1 h2
      have h3 : gid < 1 := h2
      omega
    · exact le_refl 1
  have h := dedup_outerFold dstOf F hndF (groupsBy (·.size) F) [] ⟨[], [], [], 1⟩
    (fun p hp => ⟨mem_groupsBy_eq _ _ _ _ hp,
      mem_groupsBy_ne_nil _ _ _ _ hp, by simp⟩)
    (keys_nodup_groupsBy _ _) hinit
  simpa [collectDedup] using h

theorem collectDedup_cls (F : List FileEntry) (f : FileEntry) (hf : f ∈ F) :
    ClsSz ((groupsBy (·.size) F).map Prod.fst) f := by
  unfold ClsSz
  rw [mem_keys_groupsBy]
  exact ⟨f, hf, rfl⟩

theorem classOf_congr (F : List FileEntry) (x y : FileEntry)
    (hs : x.size = y.size) (hh : x.hash = y.hash) :
    classOf F x = classOf F y := by
  unfold classOf
  apply List.filter_congr
  intro z _
  unfold sameClass
  rw [hs, hh]

theorem inDupGroup_class (dstOf : Nat → Nat) (F : List FileEntry)
    (hnd : (F.map (·.path)).Nodup) (gid : Nat) (p : Nat)
    (hin : inDupGroup (collectDedup dstOf F) gid p) :
    ∃ x f0, f0 ∈ F ∧ classOf F f0 ≠ [f0] ∧ x ∈ classOf F f0 ∧ p = x.path ∧
      groupIs dstOf (collectDedup dstOf F) gid (classOf F f0) := by
  have hinv := collectDedup_inv dstOf F hnd
  have hb : 1 ≤ gid ∧ gid < (collectDedup dstOf F).nextGid := by
    rcases hin with ⟨u, hu, hgid, _⟩ | ⟨d, hd, hgid, _⟩
    · exact hinv.gidRangeU u hu gid hgid
    · have h2 := hinv.gidRangeD d hd
      rw [hgid] at h2
      exact h2
  obtain ⟨f0, hf0, _, hns, hgIs⟩ := hinv.gidSound gid hb.1 hb.2
  obtain ⟨k, tl, hm, hufil, hdfil⟩ := hgIs
  rcases hin with ⟨u, humem, hugid, husrc⟩ | ⟨d, hdmem, hdgid, hdsrc⟩
  · have hmemf : u ∈ (collectDedup dstOf F).uniques.filter
        (fun u => decide (u.groupId = some gid)) := by
      rw [List.mem_filter]
      exact ⟨humem, by simp [hugid]⟩
    rw [hufil] at hmemf
    simp only [List.mem_singleton] at hmemf
    refine ⟨k, f0, hf0, hns, ?_, ?_, ⟨k, tl, hm, hufil, hdfil⟩⟩
    · rw [hm]
      simp
    · rw [← husrc, hmemf]
      rfl
  · have hmemf : d ∈ (collectDedup dstOf F).dups.filter
        (fun d => decide (d.groupId = gid)) := by
      rw [List.mem_filter]
      exact ⟨hdmem, by simp [hdgid]⟩
    rw [hdfil] at hmemf
    obtain ⟨x, hx, hxd⟩ := List.mem_map.1 hmemf
    refine ⟨x, f0, hf0, hns, ?_, ?_, ⟨k, tl, hm, hufil, hdfil⟩⟩
    · rw [hm]
      exact List.mem_cons_of_mem k hx
    · rw [← hdsrc, ← hxd]
      rfl

/-- C1: in collect mode, two scanned files (with distinct paths) land in
the same duplicate group exactly when they have equal byte size and equal
full-content hash; each duplicate record references the keep record of
its class, which is the class's first member in input order (the head of
the class in scan order) and the single keep of that group; a file unique
by size becomes a unique record without ever being hashed; and a file
unique by (size, hash) becomes a unique record. -/
theorem c1_dedup_grouping (dstOf : Nat → Nat) (F : List FileEntry)
    (hnd : (F.map (·.path)).Nodup) :
    (∀ f ∈ F, ∀ g ∈ F, f.path ≠ g.path →
      ((∃ gid, inDupGroup (collectDedup dstOf F) gid f.path ∧
          inDupGroup (collectDedup dstOf F) gid g.path) ↔
        (f.size = g.size ∧ f.hash = g.hash))) ∧
    (∀ d ∈ (collectDedup dstOf F).dups, ∃ fd k tl,
      fd ∈ F ∧ d.src = fd.path ∧ classOf F fd = k :: tl ∧ fd ∈ tl ∧
      d.keepSrc = k.path ∧ d.keepDst = dstOf k.path ∧
      (∃ u ∈ (collectDedup dstOf F).uniques,
        u.groupId = some d.groupId ∧ u.src = k.path ∧ u.dst = dstOf k.path) ∧
      (∀ u2 ∈ (collectDedup dstOf F).uniques,
        u2.groupId = some d.groupId → u2.src = k.path)) ∧
    (∀ f ∈ F, (∀ g ∈ F, g.path ≠ f.path → g.size ≠ f.size) →
      uniqueNone dstOf (collectDedup dstOf F) f ∧
        f ∉ (collectDedup dstOf F).hashed) ∧
    (∀ f ∈ F, (∀ g ∈ F, g.path ≠ f.path →
        ¬(g.size = f.size ∧ g.hash = f.hash)) →
      uniqueNone dstOf (collectDedup dstOf F) f) := by
  have hinv := collectDedup_inv dstOf F hnd
  refine ⟨?_, ?_, ?_, ?_⟩
  · intro f hf g hg hne
    constructor
    · rintro ⟨gid, hfin, hgin⟩
      obtain ⟨x, f0, hf0, _, hxcls, hxp, hgIs1⟩ :=
        inDupGroup_class dstOf F hnd gid f.path hfin
      obtain ⟨y, g0, hg0, _, hycls, hyp, hgIs2⟩ :=
        inDupGroup_class dstOf F hnd gid g.path hgin
      obtain ⟨hxF, hxs, hxh⟩ := (mem_classOf F f0 x).1 hxcls
      obtain ⟨hyF, hys, hyh⟩ := (mem_classOf F g0 y).1 hycls
      have hxf : x = f := pathInj F hnd x hxF f hf hxp.symm
      have hyg : y = g := pathInj F hnd y hyF g hg hyp.symm
      -- the two keep records of group `gid` coincide, so the two classes
      -- have equal size and hash
      obtain ⟨k1, tl1, hm1, hu1, _⟩ := hgIs1
      obtain ⟨k2, tl2, hm2, hu2, _⟩ := hgIs2
      have hkeq : keepRec dstOf gid k1 = keepRec dstOf gid k2 := by
        have h12 : ([keepRec dstOf gid k1] : List UniqueRecord) =
            [keepRec dstOf gid k2] := by
          rw [← hu1, ← hu2]
        simpa using h12
      have hk1c : k1 ∈ classOf F f0 := by
        rw [hm1]
        simp
      have hk2c : k2 ∈ classOf F g0 := by
        rw [hm2]
        simp
      obtain ⟨hk1F, hk1s, hk1h⟩ := (mem_classOf F f0 k1).1 hk1c
      obtain ⟨hk2F, hk2s, hk2h⟩ := (mem_classOf F g0 k2).1 hk2c
      have hkpath : k1.path = k2.path := by
        have := congrArg UniqueRecord.src hkeq
        simpa [keepRec] using this
      have hk12 : k1 = k2 := pathInj F hnd k1 hk1F k2 hk2F hkpath
      constructor
      · rw [← hxf, ← hyg, hxs, hys, ← hk1s, ← hk2s, hk12]
      · rw [← hxf, ← hyg, hxh, hyh, ← hk1h, ← hk2h, hk12]
    · rintro ⟨hsz, hh⟩
      have hgcls : g ∈ classOf F f :=
        (mem_classOf F f g).2 ⟨hg, hsz.symm, hh.symm⟩
      have hfcls : f ∈ classOf F f := self_mem_classOf F f hf
      have hnsing : classOf F f ≠ [f] := by
        intro hc
        rw [hc] at hgcls
        simp only [List.mem_singleton] at hgcls
        apply hne
        rw [hgcls]
      obtain ⟨gid, _, _, hgIs⟩ :=
        hinv.groupMulti f hf (collectDedup_cls F f hf) hnsing
      obtain ⟨k, tl, hm, hufil, hdfil⟩ := hgIs
      have hmember : ∀ z, z ∈ classOf F f →
          inDupGroup (collectDedup dstOf F) gid z.path := by
        intro z hz
        rw [hm] at hz
        rcases List.mem_cons.1 hz with hz | hz
        · left
          have hkf : keepRec dstOf gid k ∈
              (collectDedup dstOf F).uniques.filter
                (fun u => decide (u.groupId = some gid)) := by
            rw [hufil]
            simp
          refine ⟨keepRec dstOf gid k, List.mem_of_mem_filter hkf, rfl, ?_⟩
          rw [hz]
          rfl
        · right
          have hdf : dupRecOf dstOf gid k z ∈
              (collectDedup dstOf F).dups.filter
                (fun d => decide (d.groupId = gid)) := by
            rw [hdfil]
            exact List.mem_map_of_mem _ hz
          exact ⟨dupRecOf dstOf gid k z, List.mem_of_mem_filter hdf, rfl, rfl⟩
      exact ⟨gid, hmember f hfcls, hmember g hgcls⟩
  · intro d hd
    have hb := hinv.gidRangeD d hd
    obtain ⟨f0, hf0, _, hns, hgIs⟩ := hinv.gidSound d.groupId hb.1 hb.2
    obtain ⟨k, tl, hm, hufil, hdfil⟩ := hgIs
    have hdf : d ∈ (collectDedup dstOf F).dups.filter
        (fun d2 => decide (d2.groupId = d.groupId)) := by
      rw [List.mem_filter]
      exact ⟨hd, by simp⟩
    rw [hdfil] at hdf
    obtain ⟨x, hx, hxd⟩ := List.mem_map.1 hdf
    have hxcls : x ∈ classOf F f0 := by
      rw [hm]
      exact List.mem_cons_of_mem k hx
    obtain ⟨hxF, hxs, hxh⟩ := (mem_classOf F f0 x).1 hxcls
    have hclsx : classOf F x = k :: tl := by
      rw [classOf_congr F x f0 hxs hxh, hm]
    refine ⟨x, k, tl, hxF, ?_, hclsx, hx, ?_, ?_, ?_, ?_⟩
    · rw [← hxd]
      rfl
    · rw [← hxd]
      rfl
    · rw [← hxd]
      rfl
    · have hkf : keepRec dstOf d.groupId k ∈
          (collectDedup dstOf F).uniques.filter
            (fun u => decide (u.groupId = some d.groupId)) := by
        rw [hufil]
        simp
      exact ⟨keepRec dstOf d.groupId k, List.mem_of_mem_filter hkf,
        rfl, rfl, rfl⟩
    · intro u2 hu2 hgid2
      have hmem2 : u2 ∈ (collectDedup dstOf F).uniques.filter
          (fun u => decide (u.groupId = some d.groupId)) := by
        rw [List.mem_filter]
        exact ⟨hu2, by simp [hgid2]⟩
      rw [hufil] at hmem2
      simp only [List.mem_singleton] at hmem2
      rw [hmem2]
      rfl
  · intro f hf hun
    have hsf : szFilter F f = [f] := szFilter_eq_singleton F hnd f hf hun
    have hcf : classOf F f = [f] :=
      classOf_eq_singleton F hnd f hf (fun g hg hp hc => hun g hg hp hc.1)
    exact ⟨hinv.uniqueSingleton f hf (collectDedup_cls F f hf) hcf,
      hinv.notHashed f hf (collectDedup_cls F f hf) hsf⟩
  · intro f hf hun
    have hcf : classOf F f = [f] := classOf_eq_singleton F hnd f hf hun
    exact hinv.uniqueSingleton f hf (collectDedup_cls F f hf) hcf

/-- Witness for C1: Scenario A — `report` (path 1) and `report_copy`
(path 2) share size 500000 and hash 77; `notes` (path 3) is alone. -/
theorem c1_dedup_grouping_witness :
    (([(⟨1, 500000, 11, 77⟩ : FileEntry), ⟨2, 500000, 11, 77⟩,
        ⟨3, 200000, 12, 88⟩].map (·.path)).Nodup) ∧
    ((∀ f ∈ [(⟨1, 500000, 11, 77⟩ : FileEntry), ⟨2, 500000, 11, 77⟩,
        ⟨3, 200000, 12, 88⟩],
      ∀ g ∈ [(⟨1, 500000, 11, 77⟩ : FileEntry), ⟨2, 500000, 11, 77⟩,
        ⟨3, 200000, 12, 88⟩], f.path ≠ g.path →
      ((∃ gid, inDupGroup (collectDedup (fun p => p + 100)
          [⟨1, 500000, 11, 77⟩, ⟨2, 500000, 11, 77⟩, ⟨3, 200000, 12, 88⟩])
            gid f.path ∧
        inDupGroup (collectDedup (fun p => p + 100)
          [⟨1, 500000, 11, 77⟩, ⟨2, 500000, 11, 77⟩, ⟨3, 200000, 12, 88⟩])
            gid g.path) ↔
        (f.size = g.size ∧ f.hash = g.hash))) ∧
    (∀ d ∈ (collectDedup (fun p => p + 100)
        [(⟨1, 500000, 11, 77⟩ : FileEntry), ⟨2, 500000, 11, 77⟩,
          ⟨3, 200000, 12, 88⟩]).dups, ∃ fd k tl,
      fd ∈ [(⟨1, 500000, 11, 77⟩ : FileEntry), ⟨2, 500000, 11, 77⟩,
        ⟨3, 200000, 12, 88⟩] ∧ d.src = fd.path ∧
      classOf [⟨1, 500000, 11, 77⟩, ⟨2, 500000, 11, 77⟩, ⟨3, 200000, 12, 88⟩]
        fd = k :: tl ∧ fd ∈ tl ∧
      d.keepSrc = k.path ∧ d.keepDst = k.path + 100 ∧
      (∃ u ∈ (collectDedup (fun p => p + 100)
          [(⟨1, 500000, 11, 77⟩ : FileEntry), ⟨2, 500000, 11, 77⟩,
            ⟨3, 200000, 12, 88⟩]).uniques,
        u.groupId = some d.groupId ∧ u.src = k.path ∧ u.dst = k.path + 100) ∧
      (∀ u2 ∈ (collectDedup (fun p => p + 100)
          [(⟨1, 500000, 11, 77⟩ : FileEntry), ⟨2, 500000, 11, 77⟩,
            ⟨3, 200000, 12, 88⟩]).uniques,
        u2.groupId = some d.groupId → u2.src = k.path)) ∧
    (∀ f ∈ [(⟨1, 500000, 11, 77⟩ : FileEntry), ⟨2, 500000, 11, 77⟩,
        ⟨3, 200000, 12, 88⟩],
      (∀ g ∈ [(⟨1, 500000, 11, 77⟩ : FileEntry), ⟨2, 500000, 11, 77⟩,
        ⟨3, 200000, 12, 88⟩], g.path ≠ f.path → g.size ≠ f.size) →
      uniqueNone (fun p => p + 100) (collectDedup (fun p => p + 100)
        [⟨1, 500000, 11, 77⟩, ⟨2, 500000, 11, 77⟩, ⟨3, 200000, 12, 88⟩]) f ∧
        f ∉ (collectDedup (fun p => p + 100)
          [(⟨1, 500000, 11, 77⟩ : FileEntry), ⟨2, 500000, 11, 77⟩,
            ⟨3, 200000, 12, 88⟩]).hashed) ∧
    (∀ f ∈ [(⟨1, 500000, 11, 77⟩ : FileEntry), ⟨2, 500000, 11, 77⟩,
        ⟨3, 200000, 12, 88⟩],
      (∀ g ∈ [(⟨1, 500000, 11, 77⟩ : FileEntry), ⟨2, 500000, 11, 77⟩,
        ⟨3, 200000, 12, 88⟩], g.path ≠ f.path →
        ¬(g.size = f.size ∧ g.hash = f.hash)) →
      uniqueNone (fun p => p + 100) (collectDedup (fun p => p + 100)
        [⟨1, 500000, 11, 77⟩, ⟨2, 500000, 11, 77⟩, ⟨3, 200000, 12, 88⟩]) f)) :=
  ⟨by decide,
    c1_dedup_grouping (fun p => p + 100)
      [⟨1, 500000, 11, 77⟩, ⟨2, 500000, 11, 77⟩, ⟨3, 200000, 12, 88⟩]
      (by decide)⟩

end OfficeConv
